import Mathlib

/-!
Verification of `bagustris/kanji-slideshow` against its specification.

The two Python sources (`generate_kanji_images.py`, `playwright_jlptstudy.py`)
are shallowly embedded below.  Python strings are modelled as `List Char`;
CPython float arithmetic on the layout scale factor is modelled exactly over
`ℚ` (all concrete values exercised are exactly representable); the raster
drawing and font-measurement primitive (PIL) is treated as an opaque
measurement function plus an inductive type of issued paint commands, and the
CSV codec is modelled at the record level, both as prescribed by the spec's
external-collaborator boundary.
-/

namespace KanjiSlideshow

/-- Python strings, modelled as lists of characters. -/
abbrev Str := List Char

/-- Shorthand to write string literals as `List Char`. -/
def str (s : String) : Str := s.data

/-- The set of characters Python's `str.strip`, `str.split()` and the regex
class `\s` (unicode mode) treat as whitespace. -/
def pyIsSpace (c : Char) : Bool :=
  c.toNat = 9 || c.toNat = 10 || c.toNat = 11 || c.toNat = 12 || c.toNat = 13 ||
  c.toNat = 28 || c.toNat = 29 || c.toNat = 30 || c.toNat = 31 || c.toNat = 32 ||
  c.toNat = 0x85 || c.toNat = 0xA0 || c.toNat = 0x1680 ||
  (0x2000 ≤ c.toNat && c.toNat ≤ 0x200A) ||
  c.toNat = 0x2028 || c.toNat = 0x2029 || c.toNat = 0x202F || c.toNat = 0x205F ||
  c.toNat = 0x3000

/-- Python `s.lstrip()`: drop leading whitespace. -/
def lstrip (s : Str) : Str := s.dropWhile pyIsSpace

/-- Python `s.strip()`: drop leading and trailing whitespace. -/
def strip (s : Str) : Str := (lstrip (lstrip s).reverse).reverse

/-- A string with neither leading nor trailing whitespace. -/
@[reducible] def Trimmed (s : Str) : Prop :=
  lstrip s = s ∧ lstrip s.reverse = s.reverse

/-- Python `s.split(sep)` for a one-character separator: `"".split(";") = [""]`,
separators are not merged, empty pieces are kept. -/
def pySplit (sep : Char) : Str → List Str
  | [] => [[]]
  | c :: cs =>
    if c = sep then [] :: pySplit sep cs
    else (pySplit sep cs).modifyHead (c :: ·)

/-- Python `sep.join(parts)`. -/
def joinWith (sep : Str) : List Str → Str
  | [] => []
  | [t] => t
  | t :: ts => t ++ sep ++ joinWith sep ts

/-- Maximal runs of characters satisfying `p` (the semantics of
`re.findall(r"[class]+", s)`), accumulator-based. -/
def runsAux (p : Char → Bool) (cur : Str) : Str → List Str
  | [] => if cur.isEmpty then [] else [cur.reverse]
  | c :: cs =>
    if p c then runsAux p (c :: cur) cs
    else if cur.isEmpty then runsAux p [] cs
    else cur.reverse :: runsAux p [] cs

/-- Model of `re.findall(r"[class]+", s)` where `p` decides class membership. -/
def runs (p : Char → Bool) (s : Str) : List Str := runsAux p [] s

/-- Python `s.split()` with no argument: maximal runs of non-whitespace. -/
def splitWs (s : Str) : List Str := runs (fun c => !pyIsSpace c) s

/- ### Basic lemmas about the string helpers -/

theorem length_lstrip_le (s : Str) : (lstrip s).length ≤ s.length := by
  induction s with
  | nil => simp [lstrip]
  | cons c cs ih =>
    by_cases h : pyIsSpace c
    · simp only [lstrip, List.dropWhile_cons_of_pos h]
      exact le_trans ih (Nat.le_succ _)
    · simp [lstrip, List.dropWhile_cons_of_neg h]

theorem lstrip_cons_of_space {c : Char} (h : pyIsSpace c) (s : Str) :
    lstrip (c :: s) = lstrip s := by
  simp [lstrip, List.dropWhile_cons_of_pos h]

theorem lstrip_cons_of_not_space {c : Char} (h : ¬ pyIsSpace c) (s : Str) :
    lstrip (c :: s) = c :: s := by
  simp [lstrip, List.dropWhile_cons_of_neg h]

theorem head_not_space_of_lstrip_self {c : Char} {s : Str}
    (h : lstrip (c :: s) = c :: s) : pyIsSpace c = false := by
  by_contra hc
  rw [Bool.not_eq_false] at hc
  rw [lstrip_cons_of_space hc] at h
  have := length_lstrip_le s
  rw [h] at this
  simp at this

theorem strip_cons_of_space {c : Char} (h : pyIsSpace c) (s : Str) :
    strip (c :: s) = strip s := by
  simp [strip, lstrip_cons_of_space h]

theorem strip_eq_self_of_trimmed {s : Str} (h : Trimmed s) : strip s = s := by
  unfold strip
  rw [h.1, h.2, List.reverse_reverse]

theorem trimmed_of_no_space {s : Str} (h : ∀ c ∈ s, pyIsSpace c = false) :
    Trimmed s := by
  constructor
  · cases s with
    | nil => rfl
    | cons c cs =>
      exact lstrip_cons_of_not_space (by simp [h c (by simp)]) cs
  · cases hs : s.reverse with
    | nil => simp [hs, lstrip]
    | cons c cs =>
      have hc : c ∈ s := by
        rw [← List.mem_reverse, hs]; simp
      exact lstrip_cons_of_not_space (by simp [h c hc]) cs

theorem trimmed_append_left {x : Str} (hx : Trimmed x) (hne : x ≠ []) (y : Str) :
    lstrip (x ++ y) = x ++ y := by
  cases x with
  | nil => exact absurd rfl hne
  | cons c cs =>
    have := head_not_space_of_lstrip_self hx.1
    simpa using lstrip_cons_of_not_space (by simp [this]) (cs ++ y)

theorem pySplit_cons_of_ne {sep c : Char} (h : c ≠ sep) (s : Str) :
    pySplit sep (c :: s) = (pySplit sep s).modifyHead (c :: ·) := by
  simp [pySplit, h]

theorem pySplit_cons_of_eq (sep : Char) (s : Str) :
    pySplit sep (sep :: s) = [] :: pySplit sep s := by
  simp [pySplit]

theorem pySplit_ne_nil (sep : Char) (s : Str) : pySplit sep s ≠ [] := by
  induction s with
  | nil => simp [pySplit]
  | cons c cs ih =>
    by_cases h : c = sep
    · subst h; simp [pySplit]
    · rw [pySplit_cons_of_ne h]
      cases hs : pySplit sep cs with
      | nil => exact absurd hs ih
      | cons t ts => simp

theorem pySplit_no_sep {sep : Char} {s : Str} (h : sep ∉ s) :
    pySplit sep s = [[]].modifyHead (s ++ ·) := by
  induction s with
  | nil => simp [pySplit]
  | cons c cs ih =>
    have hc : c ≠ sep := fun hc => h (hc ▸ List.mem_cons_self c cs)
    have hcs : sep ∉ cs := fun hm => h (List.mem_cons_of_mem c hm)
    rw [pySplit_cons_of_ne hc, ih hcs]
    simp

theorem pySplit_no_sep_eq {sep : Char} {s : Str} (h : sep ∉ s) :
    pySplit sep s = [s] := by
  rw [pySplit_no_sep h]; simp

theorem pySplit_sep_append {sep : Char} {xs : Str} (h : sep ∉ xs) (ys : Str) :
    pySplit sep (xs ++ sep :: ys) = xs :: pySplit sep ys := by
  induction xs with
  | nil => simp [pySplit]
  | cons c cs ih =>
    have hc : c ≠ sep := fun hc => h (hc ▸ List.mem_cons_self c cs)
    have hcs : sep ∉ cs := fun hm => h (List.mem_cons_of_mem c hm)
    rw [List.cons_append, pySplit_cons_of_ne hc, ih hcs]
    simp

theorem joinWith_cons_cons (sep : Str) (t u : Str) (us : List Str) :
    joinWith sep (t :: u :: us) = t ++ sep ++ joinWith sep (u :: us) := rfl

theorem joinWith_singleton (sep t : Str) : joinWith sep [t] = t := rfl

theorem joinWith_ne_nil {sep : Str} {t : Str} (h : t ≠ []) (ts : List Str) :
    joinWith sep (t :: ts) ≠ [] := by
  cases ts with
  | nil => simpa [joinWith_singleton] using h
  | cons u us =>
    rw [joinWith_cons_cons]
    cases t with
    | nil => exact absurd rfl h
    | cons c cs => simp

theorem trimmed_joinWith {sep : Str} {ts : List Str}
    (hne : ts ≠ []) (h : ∀ t ∈ ts, t ≠ [] ∧ Trimmed t) :
    Trimmed (joinWith sep ts) := by
  induction ts with
  | nil => exact absurd rfl hne
  | cons t us ih =>
    obtain ⟨ht, htr⟩ := h t (by simp)
    cases us with
    | nil => simpa [joinWith_singleton] using htr
    | cons u vs =>
      have hJ : Trimmed (joinWith sep (u :: vs)) :=
        ih (by simp) (fun x hx => h x (List.mem_cons_of_mem t hx))
      have hJne : joinWith sep (u :: vs) ≠ [] :=
        joinWith_ne_nil (h u (by simp)).1 vs
      rw [joinWith_cons_cons]
      constructor
      · rw [List.append_assoc]
        exact trimmed_append_left htr ht _
      · rw [List.append_assoc, List.reverse_append, List.reverse_append]
        rw [List.append_assoc]
        have : Trimmed (joinWith sep (u :: vs)).reverse := by
          refine ⟨hJ.2, ?_⟩
          rw [List.reverse_reverse, hJ.1]
        exact trimmed_append_left this (by simpa using hJne) _

/- ### Field parser (`KanjiImageGenerator.parse_csv_entry`) -/

/-- Characters of the hiragana block `぀-ゟ`. -/
def isHiraChar (c : Char) : Bool := 0x3040 ≤ c.toNat && c.toNat ≤ 0x309F

/-- Characters of the katakana block `゠-ヿ`. -/
def isKataChar (c : Char) : Bool := 0x30A0 ≤ c.toNat && c.toNat ≤ 0x30FF

/-- Character class of the hiragana full-match regex `^[぀-ゟ\s・.,ー]+$`. -/
def hiraClassChar (c : Char) : Bool :=
  isHiraChar c || pyIsSpace c || c == '・' || c == '.' || c == ',' || c == 'ー'

/-- Character class of the katakana full-match regex `^[゠-ヿ\s・,ー]+$`
(note: no period, unlike the hiragana class). -/
def kataClassChar (c : Char) : Bool :=
  isKataChar c || pyIsSpace c || c == '・' || c == ',' || c == 'ー'

/-- Character class of `re.findall(r"[぀-ゟ・.,ー]+", ...)`. -/
def hiraRunChar (c : Char) : Bool :=
  isHiraChar c || c == '・' || c == '.' || c == ',' || c == 'ー'

/-- Character class of `re.findall(r"[゠-ヿ・,ー]+", ...)`. -/
def kataRunChar (c : Char) : Bool :=
  isKataChar c || c == '・' || c == ',' || c == 'ー'

/-- Model of `re.match(r"^[class]+$", s)`: it succeeds iff `s` is non-empty and every
character lies in the class (both classes here contain all of `\s`, so the
`$`-before-final-newline subtlety cannot change the outcome). -/
def matchesAll (cls : Char → Bool) (s : Str) : Bool := !s.isEmpty && s.all cls

/-- One iteration of the reading-classification loop of `parse_csv_entry`
(lines 128-143): accumulator is `(hiragana_readings, katakana_readings)`. -/
def classifyReading (acc : List Str × List Str) (reading0 : Str) :
    List Str × List Str :=
  let reading := strip reading0
  if reading.isEmpty then acc
  else if matchesAll hiraClassChar reading then (acc.1 ++ [reading], acc.2)
  else if matchesAll kataClassChar reading then (acc.1, acc.2 ++ [reading])
  else (acc.1 ++ runs hiraRunChar reading, acc.2 ++ runs kataRunChar reading)

/-- Tokenisation of the `readings` field: split on `;`, then on `,`, strip,
drop empties (lines 124-126). -/
def readingParts (s : Str) : List Str :=
  (pySplit ';' s).flatMap
    (fun part => ((pySplit ',' part).map strip).filter (fun p => !p.isEmpty))

/-- The readings half of `parse_csv_entry`: returns
`(hiragana_readings, katakana_readings)`. -/
def parseReadings (readings_str : Str) : List Str × List Str :=
  if readings_str.isEmpty then ([], [])
  else (readingParts readings_str).foldl classifyReading ([], [])

/-- One parsed compound: keys `kanji`, `reading`, `meaning` of the dicts built
at lines 159-165. -/
structure CompoundRec where
  kanji : Str
  reading : Str
  meaning : Str
deriving DecidableEq, Repr, Inhabited

/-- Character class `[^\s(]` of the first group of the compound regex. -/
def wordClass (c : Char) : Bool := !pyIsSpace c && c != '('

/-- Consume one expected literal character, failing otherwise. -/
def expectChar (c : Char) : Str → Option Str
  | [] => none
  | d :: rest => if d = c then some rest else none

/-- Model of `re.match(r"([^\s(]+)\s*\(([^)]+)\)\s*=\s*(.+)", s)` followed by
`.strip()` of the three groups.  For the inputs this is applied to (fragments
already stripped by the caller) the backtracking regex is equivalent to this
deterministic maximal-munch scan: each quantified atom is followed by an atom
its own class excludes, so shorter matches can never succeed, and `(.+)` stops
at a newline (`.` does not match `\n`). -/
def matchCompound (s : Str) : Option CompoundRec :=
  let word := s.takeWhile wordClass
  if word.isEmpty then none else
  (expectChar '(' ((s.dropWhile wordClass).dropWhile pyIsSpace)).bind fun s3 =>
  let reading := s3.takeWhile (· != ')')
  if reading.isEmpty then none else
  (expectChar ')' (s3.dropWhile (· != ')'))).bind fun s4 =>
  (expectChar '=' (s4.dropWhile pyIsSpace)).bind fun s6 =>
  let gloss := (s6.dropWhile pyIsSpace).takeWhile (· != '\n')
  if gloss.isEmpty then none
  else some ⟨strip word, strip reading, strip gloss⟩

/-- The compounds half of `parse_csv_entry` (lines 146-165): split on `;`,
strip, drop empties, keep the fragments matching the compound pattern. -/
def parseCompounds (compounds_str : Str) : List CompoundRec :=
  if compounds_str.isEmpty then []
  else
    (((pySplit ';' compounds_str).map strip).filter (fun p => !p.isEmpty)).filterMap
      (fun part => matchCompound (strip part))

/-- A raw CSV record: the four columns, all present as strings. -/
structure Row where
  kanji : Str
  meaning : Str
  readings : Str
  compounds : Str

/-- The parsed entry returned by `parse_csv_entry` (lines 167-173). -/
structure KanjiEntry where
  kanji : Str
  meaning : Str
  hiragana_readings : List Str
  katakana_readings : List Str
  compounds : List CompoundRec
deriving DecidableEq, Repr, Inhabited

/-- Embedding of `KanjiImageGenerator.parse_csv_entry` (lines 103-173). -/
def parse_csv_entry (row : Row) : KanjiEntry :=
  let hk := parseReadings (strip row.readings)
  { kanji := strip row.kanji
    meaning := strip row.meaning
    hiragana_readings := hk.1
    katakana_readings := hk.2
    compounds := parseCompounds (strip row.compounds) }

/-- The row loop of `parse_kanji_csv_file` (lines 566-577): parse each row and
keep the entry iff its (already stripped) `kanji` string is truthy. -/
def parse_kanji_csv_rows (rows : List Row) : List KanjiEntry :=
  rows.foldl
    (fun acc row =>
      let e := parse_csv_entry row
      if e.kanji.isEmpty then acc else acc ++ [e])
    []

/- ### Lemmas towards C1 (readings round-trip) -/

theorem char_ne_of_toNat_ne {a b : Char} (h : a.toNat ≠ b.toNat) : a ≠ b :=
  fun he => h (he ▸ rfl)

theorem not_space_of_kata {c : Char} (h : isKataChar c = true) :
    pyIsSpace c = false := by
  simp only [isKataChar, Bool.and_eq_true, decide_eq_true_eq] at h
  simp only [pyIsSpace, Bool.or_eq_false_iff, Bool.and_eq_false_iff,
    decide_eq_false_iff_not]
  omega

theorem hiraClassChar_eq_false {c : Char} (h1 : isKataChar c = true)
    (h2 : c ≠ '・') (h3 : c ≠ 'ー') : hiraClassChar c = false := by
  have hn : ('.' : Char).toNat = 46 := rfl
  have hc : (',' : Char).toNat = 44 := rfl
  simp only [isKataChar, Bool.and_eq_true, decide_eq_true_eq] at h1
  simp only [hiraClassChar, Bool.or_eq_false_iff]
  refine ⟨⟨⟨⟨⟨?_, ?_⟩, ?_⟩, ?_⟩, ?_⟩, ?_⟩
  · simp only [isHiraChar, Bool.and_eq_false_iff, decide_eq_false_iff_not]
    omega
  · have : isKataChar c = true := by
      simp only [isKataChar, Bool.and_eq_true, decide_eq_true_eq]; exact h1
    exact not_space_of_kata this
  · exact beq_eq_false_iff_ne.mpr h2
  · exact beq_eq_false_iff_ne.mpr (char_ne_of_toNat_ne (by omega))
  · exact beq_eq_false_iff_ne.mpr (char_ne_of_toNat_ne (by omega))
  · exact beq_eq_false_iff_ne.mpr h3

theorem kataClassChar_of_whitelist {c : Char}
    (h : isKataChar c = true ∨ pyIsSpace c = true) : kataClassChar c = true := by
  rcases h with h | h <;> simp [kataClassChar, h]

theorem comma_not_whitelist {c : Char}
    (h : isKataChar c = true ∨ pyIsSpace c = true) : c ≠ ',' := by
  have hc : (',' : Char).toNat = 44 := rfl
  rcases h with h | h
  · simp only [isKataChar, Bool.and_eq_true, decide_eq_true_eq] at h
    exact char_ne_of_toNat_ne (by omega)
  · simp only [pyIsSpace, Bool.or_eq_true, Bool.and_eq_true,
      decide_eq_true_eq] at h
    exact char_ne_of_toNat_ne (by omega)

theorem semi_not_whitelist {c : Char}
    (h : isKataChar c = true ∨ pyIsSpace c = true) : c ≠ ';' := by
  have hc : (';' : Char).toNat = 59 := rfl
  rcases h with h | h
  · simp only [isKataChar, Bool.and_eq_true, decide_eq_true_eq] at h
    exact char_ne_of_toNat_ne (by omega)
  · simp only [pyIsSpace, Bool.or_eq_true, Bool.and_eq_true,
      decide_eq_true_eq] at h
    exact char_ne_of_toNat_ne (by omega)

/-- A token built only of katakana-block characters and whitespace, trimmed,
non-empty, and containing a katakana letter other than `・`/`ー`. -/
@[reducible] def KataToken (t : Str) : Prop :=
  t ≠ [] ∧ Trimmed t ∧ (∀ c ∈ t, isKataChar c = true ∨ pyIsSpace c = true) ∧
  ∃ c ∈ t, isKataChar c = true ∧ c ≠ '・' ∧ c ≠ 'ー'

theorem classifyReading_kata {acc : List Str × List Str} {t : Str}
    (h : KataToken t) : classifyReading acc t = (acc.1, acc.2 ++ [t]) := by
  obtain ⟨hne, htr, hwl, c, hc, hck, hcd, hcb⟩ := h
  have hstrip : strip t = t := strip_eq_self_of_trimmed htr
  have hempty : t.isEmpty = false := by
    cases t with
    | nil => exact absurd rfl hne
    | cons a s => rfl
  have hhira : matchesAll hiraClassChar t = false := by
    simp only [matchesAll, Bool.and_eq_false_iff]
    right
    rw [List.all_eq_false]
    exact ⟨c, hc, by simp [hiraClassChar_eq_false hck hcd hcb]⟩
  have hkata : matchesAll kataClassChar t = true := by
    simp only [matchesAll, Bool.and_eq_true, hempty, Bool.not_false,
      true_and, List.all_eq_true]
    exact fun x hx => kataClassChar_of_whitelist (hwl x hx)
  simp only [classifyReading, hstrip, hempty, Bool.false_eq_true,
    if_false, hhira, hkata, if_true]

theorem foldl_classify_kata :
    ∀ (ts : List Str) (a b : List Str), (∀ t ∈ ts, KataToken t) →
      ts.foldl classifyReading (a, b) = (a, b ++ ts)
  | [], a, b, _ => by simp
  | t :: ts, a, b, h => by
    rw [List.foldl_cons, classifyReading_kata (h t (by simp))]
    rw [foldl_classify_kata ts a (b ++ [t])
      (fun u hu => h u (List.mem_cons_of_mem t hu))]
    simp

theorem pySplit_joinSemi :
    ∀ (t : Str) (rest : List Str), (∀ u ∈ t :: rest, ';' ∉ u) →
      pySplit ';' (joinWith (str "; ") (t :: rest)) =
        t :: rest.map (fun u => ' ' :: u)
  | t, [], h => by
    rw [joinWith_singleton, pySplit_no_sep_eq (h t (by simp))]
    simp
  | t, u :: us, h => by
    rw [joinWith_cons_cons]
    have heq : t ++ str "; " ++ joinWith (str "; ") (u :: us) =
        t ++ ';' :: (' ' :: joinWith (str "; ") (u :: us)) := by
      rw [List.append_assoc]; rfl
    rw [heq, pySplit_sep_append (h t (by simp))]
    have htail := pySplit_joinSemi u us
      (fun v hv => h v (List.mem_cons_of_mem t hv))
    rw [pySplit_cons_of_ne (by decide), htail]
    simp

theorem readingParts_clean_token {t : Str} (hne : t ≠ []) (htr : Trimmed t)
    (hcm : ',' ∉ t) :
    ((pySplit ',' t).map strip).filter (fun p => !p.isEmpty) = [t] := by
  rw [pySplit_no_sep_eq hcm]
  have : strip t = t := strip_eq_self_of_trimmed htr
  simp only [List.map_cons, List.map_nil, this, List.filter]
  cases t with
  | nil => exact absurd rfl hne
  | cons a s => rfl

theorem readingParts_clean_token_sp {t : Str} (hne : t ≠ []) (htr : Trimmed t)
    (hcm : ',' ∉ t) :
    ((pySplit ',' (' ' :: t)).map strip).filter (fun p => !p.isEmpty) = [t] := by
  have hsp : ',' ∉ (' ' :: t) := by
    intro hm
    rcases List.mem_cons.mp hm with h | h
    · exact absurd h.symm (by decide)
    · exact hcm h
  rw [pySplit_no_sep_eq hsp]
  have : strip (' ' :: t) = t := by
    rw [strip_cons_of_space (by decide), strip_eq_self_of_trimmed htr]
  simp only [List.map_cons, List.map_nil, this, List.filter]
  cases t with
  | nil => exact absurd rfl hne
  | cons a s => rfl

theorem readingParts_join {ts : List Str}
    (hne : ts ≠ [])
    (h : ∀ t ∈ ts, t ≠ [] ∧ Trimmed t ∧ ',' ∉ t ∧ ';' ∉ t) :
    readingParts (joinWith (str "; ") ts) = ts := by
  cases ts with
  | nil => exact absurd rfl hne
  | cons t rest =>
    unfold readingParts
    rw [pySplit_joinSemi t rest (fun u hu => (h u hu).2.2.2)]
    rw [List.flatMap_cons]
    obtain ⟨ht1, ht2, ht3, _⟩ := h t (by simp)
    rw [readingParts_clean_token ht1 ht2 ht3]
    have : ∀ (rs : List Str), (∀ u ∈ rs, u ≠ [] ∧ Trimmed u ∧ ',' ∉ u) →
        (rs.map (fun u => ' ' :: u)).flatMap
          (fun part => ((pySplit ',' part).map strip).filter
            (fun p => !p.isEmpty)) = rs := by
      intro rs
      induction rs with
      | nil => intro _; rfl
      | cons u us ih =>
        intro hrs
        obtain ⟨hu1, hu2, hu3⟩ := hrs u (by simp)
        rw [List.map_cons, List.flatMap_cons,
          readingParts_clean_token_sp hu1 hu2 hu3,
          ih (fun v hv => hrs v (List.mem_cons_of_mem u hv))]
        rfl
    rw [this rest (fun u hu => by
      obtain ⟨h1, h2, h3, _⟩ := h u (List.mem_cons_of_mem t hu)
      exact ⟨h1, h2, h3⟩)]
    rfl

/-- The family-A whitelist exactly as the claim states it: katakana block
plus middle dot, period, comma, prolonged-sound mark, whitespace. -/
def claimFamilyAChar (c : Char) : Bool :=
  isKataChar c || pyIsSpace c || c == '・' || c == '.' || c == ',' || c == 'ー'

/-- C1 (amended): for every non-empty list of reading tokens, each
non-empty, trimmed, consisting only of katakana-block characters plus
whitespace (so middle dot and prolonged-sound mark are allowed, but not the
comma or the period, which the code treats as a token separator resp. a
hiragana-only whitelist character), and containing at least one katakana
letter other than `・`/`ー`, parsing the string formed by joining the tokens
with `"; "` reconstructs the same ordered token list in `katakana_readings`
and leaves `hiragana_readings` empty. -/
theorem C1_katakana_roundtrip (k m cp : Str) (ts : List Str)
    (hne : ts ≠ []) (h : ∀ t ∈ ts, KataToken t) :
    (parse_csv_entry ⟨k, m, joinWith (str "; ") ts, cp⟩).katakana_readings = ts ∧
    (parse_csv_entry ⟨k, m, joinWith (str "; ") ts, cp⟩).hiragana_readings = [] := by
  have htr : Trimmed (joinWith (str "; ") ts) :=
    trimmed_joinWith hne (fun t ht => ⟨(h t ht).1, (h t ht).2.1⟩)
  have hjne : joinWith (str "; ") ts ≠ [] := by
    cases ts with
    | nil => exact absurd rfl hne
    | cons t rest => exact joinWith_ne_nil (h t (by simp)).1 rest
  have hparts : readingParts (joinWith (str "; ") ts) = ts := by
    refine readingParts_join hne (fun t ht => ?_)
    obtain ⟨h1, h2, hwl, _⟩ := h t ht
    refine ⟨h1, h2, ?_, ?_⟩
    · intro hm; exact comma_not_whitelist (hwl ',' hm) rfl
    · intro hm; exact semi_not_whitelist (hwl ';' hm) rfl
  have hemp : (joinWith (str "; ") ts).isEmpty = false := by
    cases hj : joinWith (str "; ") ts with
    | nil => exact absurd hj hjne
    | cons a s => rfl
  have hread : parseReadings (strip (joinWith (str "; ") ts)) = ([], ts) := by
    rw [strip_eq_self_of_trimmed htr]
    unfold parseReadings
    rw [if_neg (by simp [hemp]), hparts, foldl_classify_kata ts [] [] h]
    rfl
  constructor <;> simp [parse_csv_entry, hread]

/-- Witness for C1 at a concrete token list. -/
theorem C1_witness :
    (parse_csv_entry ⟨str "腕", str "arm", joinWith (str "; ")
      [str "ワン", str "アト"], str ""⟩).katakana_readings =
        [str "ワン", str "アト"] ∧
    (parse_csv_entry ⟨str "腕", str "arm", joinWith (str "; ")
      [str "ワン", str "アト"], str ""⟩).hiragana_readings = [] :=
  C1_katakana_roundtrip (str "腕") (str "arm") (str "")
    [str "ワン", str "アト"] (by decide) (by decide)

/-- C1 counterexample: the token list `["ア,.", "ー"]` satisfies the
claim's hypothesis (every character is katakana-block or whitelisted
punctuation — period and comma included), yet parsing the `"; "`-join yields
`katakana_readings = ["ア"]` and `hiragana_readings = [".", "ー"]`: the comma
splits the first token, the period is filed as hiragana (the katakana
full-match class has no period), and the bare prolonged-sound mark matches
the hiragana class, which is tested first.  So tokens are lost, split and
misfiled, refuting the claim as stated. -/
theorem C1_counterexample :
    (∀ t ∈ [str "ア,.", str "ー"],
      t ≠ [] ∧ ∀ c ∈ t, claimFamilyAChar c = true) ∧
    (parse_csv_entry ⟨str "腕", str "", joinWith (str "; ")
      [str "ア,.", str "ー"], str ""⟩).katakana_readings = [str "ア"] ∧
    (parse_csv_entry ⟨str "腕", str "", joinWith (str "; ")
      [str "ア,.", str "ー"], str ""⟩).hiragana_readings =
        [str ".", str "ー"] ∧
    ¬((parse_csv_entry ⟨str "腕", str "", joinWith (str "; ")
        [str "ア,.", str "ー"], str ""⟩).katakana_readings =
          [str "ア,.", str "ー"] ∧
      (parse_csv_entry ⟨str "腕", str "", joinWith (str "; ")
        [str "ア,.", str "ー"], str ""⟩).hiragana_readings = []) := by
  decide

/- ### Lemmas towards C2 (compound fragments) -/

/-- A well-formed compound word: non-empty, only `[^\s(]` characters, no
semicolon (it must survive the semicolon split). -/
@[reducible] def WfWord (w : Str) : Prop :=
  w ≠ [] ∧ (∀ c ∈ w, wordClass c = true) ∧ ';' ∉ w

/-- A well-formed compound reading: non-empty, no closing paren, no
semicolon. -/
@[reducible] def WfReading (r : Str) : Prop := r ≠ [] ∧ ')' ∉ r ∧ ';' ∉ r

/-- A well-formed compound gloss: non-empty, trimmed, no newline (the regex
`.` stops there), no semicolon. -/
@[reducible] def WfGloss (g : Str) : Prop :=
  g ≠ [] ∧ Trimmed g ∧ '\n' ∉ g ∧ ';' ∉ g

/-- The well-formed fragment shape `word (reading) = gloss`. -/
def mkFragment (w r g : Str) : Str :=
  w ++ ' ' :: '(' :: (r ++ ')' :: ' ' :: '=' :: ' ' :: g)

theorem matchCompound_mkFragment {w r g : Str} (hw : WfWord w)
    (hr : WfReading r) (hg : WfGloss g) :
    matchCompound (mkFragment w r g) = some ⟨w, strip r, g⟩ := by
  obtain ⟨hw1, hw2, _⟩ := hw
  obtain ⟨hr1, hr2, _⟩ := hr
  obtain ⟨hg1, hg2, hg3, _⟩ := hg
  have hwsp : ∀ c ∈ w, pyIsSpace c = false := by
    intro c hc
    have := hw2 c hc
    simp only [wordClass, Bool.and_eq_true, Bool.not_eq_true'] at this
    exact this.1
  have htakeW : (mkFragment w r g).takeWhile wordClass = w := by
    unfold mkFragment
    rw [List.takeWhile_append_of_pos hw2, List.takeWhile_cons_of_neg (by decide)]
    simp
  have hdropW : (mkFragment w r g).dropWhile wordClass =
      ' ' :: '(' :: (r ++ ')' :: ' ' :: '=' :: ' ' :: g) := by
    unfold mkFragment
    rw [List.dropWhile_append_of_pos hw2, List.dropWhile_cons_of_neg (by decide)]
  have hwne : w.isEmpty = false := by
    cases w with
    | nil => exact absurd rfl hw1
    | cons a s => rfl
  have hrne : (r ++ ')' :: ' ' :: '=' :: ' ' :: g).takeWhile (· != ')') = r := by
    rw [List.takeWhile_append_of_pos (by
      intro c hc
      simp only [bne_iff_ne, ne_eq, decide_eq_true_eq]
      exact fun he => hr2 (he ▸ hc))]
    rw [List.takeWhile_cons_of_neg (by decide)]
    simp
  have hrdrop : (r ++ ')' :: ' ' :: '=' :: ' ' :: g).dropWhile (· != ')') =
      ')' :: ' ' :: '=' :: ' ' :: g := by
    rw [List.dropWhile_append_of_pos (by
      intro c hc
      simp only [bne_iff_ne, ne_eq, decide_eq_true_eq]
      exact fun he => hr2 (he ▸ hc))]
    rw [List.dropWhile_cons_of_neg (by decide)]
  have hrempty : r.isEmpty = false := by
    cases r with
    | nil => exact absurd rfl hr1
    | cons a s => rfl
  have hgl : (' ' :: g).dropWhile pyIsSpace = g := by
    rw [List.dropWhile_cons_of_pos (by decide)]
    exact hg2.1
  have hgt : g.takeWhile (· != '\n') = g := by
    rw [List.takeWhile_eq_self_iff]
    intro c hc
    simp only [bne_iff_ne, ne_eq, decide_eq_true_eq]
    exact fun he => hg3 (he ▸ hc)
  have hgempty : g.isEmpty = false := by
    cases g with
    | nil => exact absurd rfl hg1
    | cons a s => rfl
  have hsp : (' ' :: '(' :: (r ++ ')' :: ' ' :: '=' :: ' ' :: g)).dropWhile
      pyIsSpace = '(' :: (r ++ ')' :: ' ' :: '=' :: ' ' :: g) := by
    rw [List.dropWhile_cons_of_pos (by decide),
      List.dropWhile_cons_of_neg (by decide)]
  have hsp2 : (' ' :: '=' :: ' ' :: g).dropWhile pyIsSpace =
      '=' :: ' ' :: g := by
    rw [List.dropWhile_cons_of_pos (by decide),
      List.dropWhile_cons_of_neg (by decide)]
  unfold matchCompound
  rw [htakeW, hdropW, hsp]
  simp only [hwne, Bool.false_eq_true, if_false]
  rw [show expectChar '(' ('(' :: (r ++ ')' :: ' ' :: '=' :: ' ' :: g)) =
    some (r ++ ')' :: ' ' :: '=' :: ' ' :: g) from by simp [expectChar]]
  rw [Option.some_bind]
  rw [hrne, hrdrop]
  simp only [hrempty, Bool.false_eq_true, if_false]
  rw [show expectChar ')' (')' :: ' ' :: '=' :: ' ' :: g) =
    some (' ' :: '=' :: ' ' :: g) from by simp [expectChar]]
  rw [Option.some_bind, hsp2]
  rw [show expectChar '=' ('=' :: ' ' :: g) = some (' ' :: g) from by
    simp [expectChar]]
  rw [Option.some_bind, hgl, hgt]
  simp only [hgempty, Bool.false_eq_true, if_false]
  rw [strip_eq_self_of_trimmed (trimmed_of_no_space hwsp),
    strip_eq_self_of_trimmed hg2]

theorem mkFragment_ne_nil (w r g : Str) : mkFragment w r g ≠ [] := by
  unfold mkFragment
  cases w <;> simp

theorem semi_not_mem_mkFragment {w r g : Str} (hw : ';' ∉ w) (hr : ';' ∉ r)
    (hg : ';' ∉ g) : ';' ∉ mkFragment w r g := by
  unfold mkFragment
  intro hm
  rcases List.mem_append.mp hm with h | h
  · exact hw h
  · rcases List.mem_cons.mp h with h | h
    · exact absurd h.symm (by decide)
    rcases List.mem_cons.mp h with h | h
    · exact absurd h.symm (by decide)
    rcases List.mem_append.mp h with h | h
    · exact hr h
    · rcases List.mem_cons.mp h with h | h
      · exact absurd h.symm (by decide)
      rcases List.mem_cons.mp h with h | h
      · exact absurd h.symm (by decide)
      rcases List.mem_cons.mp h with h | h
      · exact absurd h.symm (by decide)
      rcases List.mem_cons.mp h with h | h
      · exact absurd h.symm (by decide)
      · exact hg h

theorem trimmed_mkFragment {w r g : Str} (hw : WfWord w) (hg : WfGloss g) :
    Trimmed (mkFragment w r g) := by
  obtain ⟨hw1, hw2, _⟩ := hw
  obtain ⟨hg1, hg2, _, _⟩ := hg
  constructor
  · cases hwc : w with
    | nil => exact absurd hwc hw1
    | cons c cs =>
      have hc : pyIsSpace c = false := by
        have := hw2 c (by rw [hwc]; simp)
        simp only [wordClass, Bool.and_eq_true, Bool.not_eq_true'] at this
        exact this.1
      unfold mkFragment
      exact lstrip_cons_of_not_space (by simp [hc]) _
  · have hsplit : mkFragment w r g =
        (w ++ ' ' :: '(' :: (r ++ [')', ' ', '=', ' '])) ++ g := by
      simp [mkFragment]
    rw [hsplit, List.reverse_append]
    have htrev : Trimmed g.reverse := by
      refine ⟨hg2.2, ?_⟩
      rw [List.reverse_reverse, hg2.1]
    exact trimmed_append_left htrev (by simpa using hg1) _

theorem filterMap_strip_trimmed :
    ∀ (ps : List Str), (∀ p ∈ ps, Trimmed p) →
      ps.filterMap (fun part => matchCompound (strip part)) =
        ps.filterMap matchCompound
  | [], _ => rfl
  | p :: ps, h => by
    rw [List.filterMap_cons, List.filterMap_cons,
      strip_eq_self_of_trimmed (h p (by simp)),
      filterMap_strip_trimmed ps (fun q hq => h q (List.mem_cons_of_mem p hq))]

/-- Evaluation of `parseCompounds` over a `"; "`-join of clean fragments is `filterMap` of
the fragment matcher. -/
theorem parseCompounds_join :
    ∀ (fs : List Str), (∀ f ∈ fs, f ≠ [] ∧ Trimmed f ∧ ';' ∉ f) →
      parseCompounds (strip (joinWith (str "; ") fs)) =
        fs.filterMap matchCompound
  | [], _ => rfl
  | f :: rest, h => by
    have htr : Trimmed (joinWith (str "; ") (f :: rest)) :=
      trimmed_joinWith (by simp) (fun t ht => ⟨(h t ht).1, (h t ht).2.1⟩)
    have hjne : joinWith (str "; ") (f :: rest) ≠ [] :=
      joinWith_ne_nil (h f (by simp)).1 rest
    have hemp : (joinWith (str "; ") (f :: rest)).isEmpty = false := by
      cases hj : joinWith (str "; ") (f :: rest) with
      | nil => exact absurd hj hjne
      | cons a s => rfl
    rw [strip_eq_self_of_trimmed htr]
    unfold parseCompounds
    rw [if_neg (by simp [hemp])]
    rw [pySplit_joinSemi f rest (fun u hu => (h u hu).2.2)]
    have hmap : (f :: rest.map (fun u => ' ' :: u)).map strip =
        f :: rest := by
      rw [List.map_cons]
      congr 1
      · exact strip_eq_self_of_trimmed (h f (by simp)).2.1
      · rw [List.map_map]
        have : ∀ u ∈ rest, (strip ∘ fun u => ' ' :: u) u = id u := by
          intro u hu
          simp only [Function.comp_apply, id_eq]
          rw [strip_cons_of_space (by decide),
            strip_eq_self_of_trimmed (h u (List.mem_cons_of_mem f hu)).2.1]
        rw [List.map_congr_left this, List.map_id]
    rw [hmap]
    have hfil : (f :: rest).filter (fun p => !p.isEmpty) = f :: rest := by
      rw [List.filter_eq_self]
      intro a ha
      have : a ≠ [] := (h a ha).1
      cases a with
      | nil => exact absurd rfl this
      | cons x xs => rfl
    rw [hfil, filterMap_strip_trimmed (f :: rest) (fun p hp => (h p hp).2.1)]

/-- A well-formed item `(word, reading, gloss)`. -/
@[reducible] def WfFrag (it : Str × Str × Str) : Prop :=
  WfWord it.1 ∧ WfReading it.2.1 ∧ WfGloss it.2.2

/-- The fragment text of an item. -/
def fragOf (it : Str × Str × Str) : Str := mkFragment it.1 it.2.1 it.2.2

/-- The record the parser is expected to produce for an item (components
trimmed). -/
def recOf (it : Str × Str × Str) : CompoundRec := ⟨it.1, strip it.2.1, it.2.2⟩

theorem fragOf_good {it : Str × Str × Str} (h : WfFrag it) :
    fragOf it ≠ [] ∧ Trimmed (fragOf it) ∧ ';' ∉ fragOf it :=
  ⟨mkFragment_ne_nil _ _ _, trimmed_mkFragment h.1 h.2.2,
    semi_not_mem_mkFragment h.1.2.2 h.2.1.2.2 h.2.2.2.2.2⟩

theorem filterMap_fragOf :
    ∀ (items : List (Str × Str × Str)), (∀ it ∈ items, WfFrag it) →
      (items.map fragOf).filterMap matchCompound = items.map recOf
  | [], _ => rfl
  | it :: items, h => by
    obtain ⟨h1, h2, h3⟩ := h it (by simp)
    rw [List.map_cons, List.filterMap_cons, List.map_cons]
    rw [show matchCompound (fragOf it) = some (recOf it) from
      matchCompound_mkFragment h1 h2 h3]
    rw [filterMap_fragOf items (fun u hu => h u (List.mem_cons_of_mem it hu))]

/-- C2: a `compounds` string made of N well-formed
`word (reading) = gloss` fragments joined by `"; "` parses to exactly those N
records in order, with trimmed components; with one malformed fragment
(failing the compound pattern) inserted anywhere, the other N records are
produced in order and the malformed fragment is silently absent. -/
theorem C2_compound_fragments (k m rd : Str) (items : List (Str × Str × Str))
    (hw : ∀ it ∈ items, WfFrag it) :
    (parse_csv_entry ⟨k, m, rd,
        joinWith (str "; ") (items.map fragOf)⟩).compounds = items.map recOf ∧
    ∀ pre post mal, items = pre ++ post → mal ≠ [] → Trimmed mal →
      ';' ∉ mal → matchCompound mal = none →
      (parse_csv_entry ⟨k, m, rd, joinWith (str "; ")
          (pre.map fragOf ++ mal :: post.map fragOf)⟩).compounds =
        items.map recOf := by
  constructor
  · show parseCompounds (strip (joinWith (str "; ") (items.map fragOf))) = _
    rw [parseCompounds_join (items.map fragOf) (by
      intro f hf
      obtain ⟨it, hit, rfl⟩ := List.mem_map.mp hf
      exact fragOf_good (hw it hit))]
    exact filterMap_fragOf items hw
  · intro pre post mal hsplit hm1 hm2 hm3 hm4
    have hpre : ∀ it ∈ pre, WfFrag it := fun it hit =>
      hw it (hsplit ▸ List.mem_append_left post hit)
    have hpost : ∀ it ∈ post, WfFrag it := fun it hit =>
      hw it (hsplit ▸ List.mem_append_right pre hit)
    show parseCompounds (strip (joinWith (str "; ")
      (pre.map fragOf ++ mal :: post.map fragOf))) = _
    rw [parseCompounds_join (pre.map fragOf ++ mal :: post.map fragOf) (by
      intro f hf
      rcases List.mem_append.mp hf with h | h
      · obtain ⟨it, hit, rfl⟩ := List.mem_map.mp h
        exact fragOf_good (hpre it hit)
      · rcases List.mem_cons.mp h with h | h
        · subst h; exact ⟨hm1, hm2, hm3⟩
        · obtain ⟨it, hit, rfl⟩ := List.mem_map.mp h
          exact fragOf_good (hpost it hit))]
    rw [List.filterMap_append, List.filterMap_cons, hm4]
    rw [filterMap_fragOf pre hpre, filterMap_fragOf post hpost]
    rw [hsplit, List.map_append]

/-- Witness for C2: two well-formed fragments round-trip, and with the
malformed fragment `"oops"` inserted between them the same two records are
produced. -/
theorem C2_witness :
    (parse_csv_entry ⟨str "腕", str "", str "", joinWith (str "; ")
        [fragOf (str "右腕", str "うわん", str "right arm"),
         fragOf (str "手腕", str "しゅわん", str "ability")]⟩).compounds =
      [⟨str "右腕", str "うわん", str "right arm"⟩,
       ⟨str "手腕", str "しゅわん", str "ability"⟩] ∧
    (parse_csv_entry ⟨str "腕", str "", str "", joinWith (str "; ")
        [fragOf (str "右腕", str "うわん", str "right arm"), str "oops",
         fragOf (str "手腕", str "しゅわん", str "ability")]⟩).compounds =
      [⟨str "右腕", str "うわん", str "right arm"⟩,
       ⟨str "手腕", str "しゅわん", str "ability"⟩] := by
  have h := C2_compound_fragments (str "腕") (str "") (str "")
    [(str "右腕", str "うわん", str "right arm"),
     (str "手腕", str "しゅわん", str "ability")] (by decide)
  constructor
  · exact h.1.trans (by decide)
  · have h2 := h.2 [(str "右腕", str "うわん", str "right arm")]
      [(str "手腕", str "しゅわん", str "ability")] (str "oops")
      rfl (by decide) (by decide) (by decide) (by decide)
    exact h2.trans (by decide)

/-- C3: for every list of raw records whose four fields are present as
strings, the row loop never fails: every row parses to a `KanjiEntry` (the
embedded parser is total), and a row is kept if and only if its `kanji`
field is non-empty after trimming — the batch is exactly the parses of the
rows with non-blank characters, in order. -/
theorem C3_parse_total_and_filter (rows : List Row) :
    parse_kanji_csv_rows rows =
      (rows.filter (fun r => !(strip r.kanji).isEmpty)).map parse_csv_entry := by
  have key : ∀ (rs : List Row) (acc : List KanjiEntry),
      rs.foldl
        (fun acc row =>
          let e := parse_csv_entry row
          if e.kanji.isEmpty then acc else acc ++ [e]) acc =
      acc ++ (rs.filter (fun r => !(strip r.kanji).isEmpty)).map
        parse_csv_entry := by
    intro rs
    induction rs with
    | nil => intro acc; simp
    | cons r rs ih =>
      intro acc
      rw [List.foldl_cons]
      have hk : (parse_csv_entry r).kanji = strip r.kanji := rfl
      by_cases h : (strip r.kanji).isEmpty = true
      · simp only [hk, h, if_true]
        rw [ih acc, List.filter_cons_of_neg (by simp [h])]
      · simp only [hk, h, Bool.false_eq_true, if_false]
        rw [ih (acc ++ [parse_csv_entry r]),
          List.filter_cons_of_pos (by simp [h])]
        simp
  rw [parse_kanji_csv_rows, key rows []]
  simp

/- ### Metric-scaled layout engine: the scale factor (C4) -/

/-- Embedding of `self.scale = min(W / 1920.0, H / 1080.0)` (`__init__`, lines 44-47);
CPython float division modelled exactly over `ℚ`. -/
def scaleQ (W H : ℕ) : ℚ := min ((W : ℚ) / 1920) ((H : ℚ) / 1080)

/-- Python 3 `round` on a float: round half to even. -/
def pyRound (q : ℚ) : ℤ :=
  let f := Int.floor q
  let r := q - f
  if r < 1/2 then f
  else if 1/2 < r then f + 1
  else if f % 2 = 0 then f else f + 1

/-- Embedding of `KanjiImageGenerator._s(px, minimum)` (lines 53-55):
`max(int(round(px * self.scale)), minimum)`. -/
def _s (W H : ℕ) (px : ℕ) (minimum : ℤ) : ℤ :=
  max (pyRound ((px : ℚ) * scaleQ W H)) minimum

/-- Shorthand for `_s` with the default `minimum=1`, as used by all layout code. -/
def sd (W H : ℕ) (px : ℕ) : ℤ := _s W H px 1

theorem pyRound_intCast (n : ℤ) : pyRound (n : ℚ) = n := by
  unfold pyRound
  rw [Int.floor_intCast]
  norm_num

/-- C4 (amended): the scaled dimension equals `px` multiplied by
`min(W/1920, H/1080)` rounded half-to-even (not floored), lower-bounded by
the stated minimum; in particular at 960×540 it is `round(px/2)` (half to
even) bounded below, and at 3840×2160 it is exactly `2·px` bounded below. -/
theorem C4_scaled_dimension (px : ℕ) (m : ℤ) :
    (∀ W H : ℕ, _s W H px m = max (pyRound ((px : ℚ) * scaleQ W H)) m) ∧
    _s 960 540 px m = max (pyRound ((px : ℚ) / 2)) m ∧
    _s 3840 2160 px m = max (2 * (px : ℤ)) m := by
  refine ⟨fun W H => rfl, ?_, ?_⟩
  · unfold _s
    rw [show scaleQ 960 540 = 1/2 from by norm_num [scaleQ], mul_one_div]
  · unfold _s
    rw [show scaleQ 3840 2160 = 2 from by norm_num [scaleQ]]
    rw [show (px : ℚ) * 2 = ((2 * (px : ℤ) : ℤ) : ℚ) from by push_cast; ring]
    rw [pyRound_intCast]

/-- C4 counterexample: at the claim's own down-scaled case 960×540 with
baseline `px = 15` (the compound-box padding) and minimum 1, the code
computes `max(round(7.5), 1) = 8`, while the claim's floor gives
`max(floor(7.5), 1) = 7`. -/
theorem C4_counterexample :
    _s 960 540 15 1 = 8 ∧
    max (Int.floor ((15 : ℚ) * scaleQ 960 540)) 1 = 7 ∧ (8 : ℤ) ≠ 7 := by
  refine ⟨?_, ?_, by decide⟩
  · show max (pyRound ((15 : ℚ) * scaleQ 960 540)) 1 = 8
    rw [show (15 : ℚ) * scaleQ 960 540 = 15/2 from by norm_num [scaleQ]]
    rw [show pyRound (15/2 : ℚ) = 8 from by
      unfold pyRound
      rw [show Int.floor (15/2 : ℚ) = 7 from by
        rw [Int.floor_eq_iff]; norm_num]
      norm_num]
    decide
  · rw [show (15 : ℚ) * scaleQ 960 540 = 15/2 from by norm_num [scaleQ]]
    rw [show Int.floor (15/2 : ℚ) = 7 from by
      rw [Int.floor_eq_iff]; norm_num]
    decide

/- ### Reading-chip wrapping (C5) -/

/-- The wrap decision of `_draw_readings` (lines 271-275 and 312-317): the
chip is moved to a new line exactly when its padded right edge would pass
`max_reading_x` AND the cursor is not at the line origin `right_x`.  Returns
the paint position `(x, y)` of the chip. -/
def chipPlace (right_x max_reading_x reading_line_step : ℤ)
    (pill_total_width current_x y : ℤ) : ℤ × ℤ :=
  if current_x + pill_total_width > max_reading_x ∧ current_x ≠ right_x then
    (right_x, y + reading_line_step)
  else (current_x, y)

/-- C5 (amended): a chip whose padded right edge lands exactly on (or
inside) the right margin is painted on the current line; a chip whose right
edge would exceed the margin by one unit wraps provided it is not the first
chip of its line; in general a chip wraps exactly when its right edge would
exceed the right margin AND the cursor is not at the line origin — the first
chip of a line is never wrapped, however wide. -/
theorem C5_wrap_boundary (rX mX st w x y : ℤ) :
    (x + w ≤ mX → chipPlace rX mX st w x y = (x, y)) ∧
    (x + w = mX + 1 → x ≠ rX → chipPlace rX mX st w x y = (rX, y + st)) ∧
    (chipPlace rX mX st w x y ≠ (x, y) ↔ mX < x + w ∧ x ≠ rX) := by
  refine ⟨?_, ?_, ?_, ?_⟩
  · intro h
    unfold chipPlace
    rw [if_neg (fun hc => absurd hc.1 (not_lt.mpr h))]
  · intro h hx
    unfold chipPlace
    rw [if_pos ⟨by omega, hx⟩]
  · intro hne
    by_cases hc : mX < x + w ∧ x ≠ rX
    · exact hc
    · unfold chipPlace at hne
      rw [if_neg hc] at hne
      exact absurd rfl hne
  · intro hc
    unfold chipPlace
    rw [if_pos hc]
    intro heq
    exact hc.2 ((Prod.mk.injEq _ _ _ _).mp heq).1.symm

/-- Witness for C5 at the baseline geometry (`right_x = 430`,
`max_reading_x = 1840`, `reading_line_step = 40`): an exactly-fitting chip
stays, a one-unit-over chip mid-line wraps. -/
theorem C5_witness :
    chipPlace 430 1840 40 1380 460 100 = (460, 100) ∧
    chipPlace 430 1840 40 15 1826 200 = (430, 240) :=
  ⟨(C5_wrap_boundary 430 1840 40 1380 460 100).1 (by decide),
   (C5_wrap_boundary 430 1840 40 15 1826 200).2.1 (by decide) (by decide)⟩

/-- C5 counterexample: a chip at the start of its line (cursor at
`right_x = 430`) whose padded right edge exceeds the margin by exactly one
unit (430 + 1411 = 1840 + 1) is painted at the current position and does NOT
wrap, because the code additionally requires `current_x != right_x` — the
claim's "a chip whose padded right edge would exceed that margin by one unit
is wrapped" fails for the first chip of a line. -/
theorem C5_counterexample :
    chipPlace 430 1840 40 1411 430 100 = (430, 100) ∧
    (430 : ℤ) + 1411 = 1840 + 1 := by
  constructor
  · unfold chipPlace
    rw [if_neg (fun hc => hc.2 rfl)]
  · decide

/- ### Batch driver naming and numbering (C7) -/

/-- Python `str.upper()`, modelled for ASCII characters. -/
def pyUpper (s : Str) : Str := s.map Char.toUpper

/-- Python `str.replace("_", "-")`. -/
def replaceUnderscore (s : Str) : Str :=
  s.map (fun c => if c = '_' then '-' else c)

/-- The suffix derivation of `main` (lines 676-682): everything after the
first underscore, upper-cased, remaining underscores to hyphens; without an
underscore the whole base name, upper-cased. -/
def deriveSuffix (base : Str) : Str :=
  if base.contains '_' then
    replaceUnderscore (pyUpper ((base.dropWhile (· != '_')).drop 1))
  else pyUpper base

/-- Embedding of `output_dir = "JLPT-{}".format(suffix)` (line 684). -/
def outputDir (base : Str) : Str := str "JLPT-" ++ deriveSuffix base

/-- Python `"{:05d}".format(n)` for `n ≥ 0`. -/
def pad5 (n : ℕ) : Str :=
  List.replicate (5 - (Nat.repr n).data.length) '0' ++ (Nat.repr n).data

/-- Embedding of `filename = "JLPT_{}_{:05d}.png".format(suffix, file_number)` (line 693). -/
def outputFilename (suffix : Str) (file_number : ℕ) : Str :=
  str "JLPT_" ++ suffix ++ '_' :: (pad5 file_number ++ str ".png")

/-- The output loop of `main` (lines 690-699): `enumerate` assigns
`file_number = i + 1` to the i-th entry, and the success or failure of the
render does not influence the numbering. -/
def batchRun {α : Type} (render : α → Bool) (suffix : Str) :
    ℕ → List α → List (Str × Bool)
  | _, [] => []
  | i, e :: es =>
    (outputFilename suffix (i + 1), render e) :: batchRun render suffix (i + 1) es

theorem batchRun_files {α : Type} (render : α → Bool) (suffix : Str) :
    ∀ (es : List α) (i : ℕ),
      (batchRun render suffix i es).map Prod.fst =
        (List.range es.length).map (fun j => outputFilename suffix (i + j + 1))
  | [], _ => rfl
  | e :: es, i => by
    rw [show batchRun render suffix i (e :: es) =
      (outputFilename suffix (i + 1), render e) ::
        batchRun render suffix (i + 1) es from rfl]
    rw [List.map_cons, batchRun_files render suffix es (i + 1)]
    rw [List.length_cons, List.range_succ_eq_map, List.map_cons, List.map_map]
    congr 1
    refine List.map_congr_left (fun j _ => ?_)
    simp only [Function.comp_apply]
    exact congrArg (outputFilename suffix) (by omega)

/-- C7 counterexample: for a base name with no underscore the code
upper-cases it, so the directory is not the fixed prefix plus the base name
as the claim's parenthetical states. -/
theorem C7_counterexample :
    outputDir (str "abc") = str "JLPT-ABC" ∧
    outputDir (str "abc") ≠ str "JLPT-" ++ str "abc" := by decide

/-- C7 (amended): the output directory is the prefix `JLPT-` plus the
substring after the first underscore upper-cased with remaining underscores
replaced by hyphens (no underscore: the whole base name, upper-cased); the
i-th entry (1-based) is written to the file named with the label and the
zero-padded five-digit number i, for every render outcome — so a failed
render still consumes its sequence number — and the first file number
renders as `00001`. -/
theorem C7_output_naming {α : Type} (render : α → Bool)
    (pre post base suffix : Str) (es : List α)
    (hpre : '_' ∉ pre) (hbase : '_' ∉ base) :
    outputDir (pre ++ '_' :: post) =
      str "JLPT-" ++ replaceUnderscore (pyUpper post) ∧
    outputDir base = str "JLPT-" ++ pyUpper base ∧
    (batchRun render suffix 0 es).map Prod.fst =
      (List.range es.length).map (fun j => outputFilename suffix (j + 1)) ∧
    pad5 1 = str "00001" := by
  refine ⟨?_, ?_, ?_, by decide⟩
  · unfold outputDir deriveSuffix
    rw [if_pos (by
      simp only [List.contains, List.elem_eq_mem, decide_eq_true_eq]
      exact List.mem_append_right pre (by simp))]
    rw [List.dropWhile_append_of_pos (by
      intro c hc
      simp only [bne_iff_ne, ne_eq, decide_eq_true_eq]
      exact fun he => hpre (he ▸ hc))]
    rw [List.dropWhile_cons_of_neg (by simp)]
    rfl
  · unfold outputDir deriveSuffix
    rw [if_neg (by
      simp only [List.contains, List.elem_eq_mem, decide_eq_true_eq]
      exact hbase)]
  · have h := batchRun_files render suffix es 0
    rw [h]
    exact List.map_congr_left (fun j _ => by norm_num)

/-- Witness for C7 at concrete names and a batch with one failing render. -/
theorem C7_witness :
    outputDir (str "kanji" ++ '_' :: str "n2") = str "JLPT-N2" ∧
    outputDir (str "data") = str "JLPT-DATA" ∧
    (batchRun id (str "N2") 0 [true, false]).map Prod.fst =
      [str "JLPT_N2_00001.png", str "JLPT_N2_00002.png"] := by
  have h := C7_output_naming id (str "kanji") (str "n2") (str "data")
    (str "N2") [true, false] (by decide) (by decide)
  exact ⟨h.1.trans (by decide), h.2.1.trans (by decide),
    h.2.2.1.trans (by decide)⟩

/- ### Harvester CSV writes (C8) -/

/-- A compound scraped from the page (`word`, `kana`, `translation`). -/
structure ScrapedCompound where
  word : Str
  kana : Str
  translation : Str

/-- A scraped kanji result (lines 72-77). -/
structure ScrapedEntry where
  kanji : Str
  meaning : Str
  readings : List Str
  compounds : List ScrapedCompound

/-- One serialized CSV row (the codec itself is an external collaborator, so
rows are modelled at the record level). -/
structure CsvRow where
  kanji : Str
  meaning : Str
  readings : Str
  compounds : Str
deriving DecidableEq

/-- Embedding of `f'{c["word"]} ({c["kana"]}) = {c["translation"]}'` (line 104). -/
def fmtCompound1 (c : ScrapedCompound) : Str :=
  c.word ++ ' ' :: '(' :: (c.kana ++ ')' :: ' ' :: '=' :: ' ' :: c.translation)

/-- The identical f-string of the second write block (line 116). -/
def fmtCompound2 (c : ScrapedCompound) : Str :=
  c.word ++ ' ' :: '(' :: (c.kana ++ ')' :: ' ' :: '=' :: ' ' :: c.translation)

/-- The rows written by the first `csv.DictWriter` block (lines 96-105). -/
def serializeRows1 (rs : List ScrapedEntry) : List CsvRow :=
  rs.map fun r =>
    ⟨r.kanji, r.meaning, joinWith (str "; ") r.readings,
      joinWith (str "; ") (r.compounds.map fmtCompound1)⟩

/-- The rows written by the second `csv.DictWriter` block (lines 108-117). -/
def serializeRows2 (rs : List ScrapedEntry) : List CsvRow :=
  rs.map fun r =>
    ⟨r.kanji, r.meaning, joinWith (str "; ") r.readings,
      joinWith (str "; ") (r.compounds.map fmtCompound2)⟩

/-- Embedding of `filename = f"kanji_n{args.level}.csv"` (line 95). -/
def levelFileName (n : ℕ) : Str := str "kanji_n" ++ (Nat.repr n).data ++ str ".csv"

/-- The file writes performed after scraping (lines 95-117), in order: the
level-named file, then — unconditionally — `kanji_n2.csv`. -/
def harvesterWrites (level : ℕ) (rs : List ScrapedEntry) :
    List (Str × List CsvRow) :=
  [(levelFileName level, serializeRows1 rs),
   (str "kanji_n2.csv", serializeRows2 rs)]

/-- C8: for every selected level the harvester writes the serialized rows
to `kanji_n{level}.csv` and then unconditionally overwrites `kanji_n2.csv`
with the very same rows, even when the level is not 2. -/
theorem C8_always_writes_n2 (level : ℕ) (rs : List ScrapedEntry) :
    harvesterWrites level rs =
      [(levelFileName level, serializeRows1 rs),
       (levelFileName 2, serializeRows1 rs)] ∧
    (harvesterWrites level rs).map Prod.fst =
      [levelFileName level, str "kanji_n2.csv"] := by
  have h12 : serializeRows2 rs = serializeRows1 rs := rfl
  have hname : str "kanji_n2.csv" = levelFileName 2 := by decide
  exact ⟨by rw [harvesterWrites, h12, hname], rfl⟩

/- ### Batch-driver fatality behaviour (C10) -/

/-- Observable events of the file loop of `main` (lines 654-668). -/
inductive RunEvent where
  | errorMissing (f : Str)
  | processed (f : Str)
  | usage
deriving DecidableEq, Repr

/-- The file loop of `main` (lines 654-659): a missing file is logged; the
loop then returns early iff `len(sys.argv) == 2` (exactly one token after
the program name), else continues with the next file.  No usage message is
ever emitted. -/
def mainLoop (fsExists : Str → Bool) (argvLen : ℕ) : List Str → List RunEvent
  | [] => []
  | f :: fs =>
    if fsExists f then .processed f :: mainLoop fsExists argvLen fs
    else .errorMissing f ::
      (if argvLen = 2 then [] else mainLoop fsExists argvLen fs)

/-- The default input files used when no csv argument is given (lines
633-638). -/
def defaultInputFiles : List Str :=
  [str "kanji_n2.csv", str "kanji_n3.csv", str "kanji_n4.csv",
   str "kanji_n5.csv"]

/-- C10 counterexample: invoked with no argument (`argv` length 1) and
none of the default per-level files present, the loop logs each missing file,
skips it, and ends normally — no usage message is emitted, so the run does
not "end with a usage message" as the claim states. -/
theorem C10_counterexample :
    mainLoop (fun _ => false) 1 defaultInputFiles =
      [.errorMissing (str "kanji_n2.csv"), .errorMissing (str "kanji_n3.csv"),
       .errorMissing (str "kanji_n4.csv"),
       .errorMissing (str "kanji_n5.csv")] ∧
    RunEvent.usage ∉ mainLoop (fun _ => false) 1 defaultInputFiles := by
  constructor
  · rfl
  · intro h
    rw [show mainLoop (fun _ => false) 1 defaultInputFiles =
      [.errorMissing (str "kanji_n2.csv"), .errorMissing (str "kanji_n3.csv"),
       .errorMissing (str "kanji_n4.csv"),
       .errorMissing (str "kanji_n5.csv")] from rfl] at h
    simp at h

/-- C10 (amended): the file loop never prints a usage message and nothing
is fatal, with one exception: when invoked with exactly one command-line
token after the program name, the first missing input file ends the run
early (after its error message); in every other invocation each missing file
is logged and skipped and the loop continues through all remaining files. -/
theorem C10_fatality (fsExists : Str → Bool) (a : ℕ) (files : List Str) :
    RunEvent.usage ∉ mainLoop fsExists a files ∧
    (a ≠ 2 → mainLoop fsExists a files =
      files.map (fun f =>
        if fsExists f then .processed f else .errorMissing f)) ∧
    (a = 2 → mainLoop fsExists a files =
      (files.takeWhile fsExists).map .processed ++
        (match files.dropWhile fsExists with
         | [] => []
         | f :: _ => [.errorMissing f])) := by
  refine ⟨?_, ?_, ?_⟩
  · induction files with
    | nil => simp [mainLoop]
    | cons f fs ih =>
      intro h
      unfold mainLoop at h
      by_cases hf : fsExists f
      · rw [if_pos hf] at h
        rcases List.mem_cons.mp h with h | h
        · exact absurd h.symm (by simp)
        · exact ih h
      · rw [if_neg hf] at h
        rcases List.mem_cons.mp h with h | h
        · exact absurd h.symm (by simp)
        · by_cases ha : a = 2
          · rw [if_pos ha] at h
            simp at h
          · rw [if_neg ha] at h
            exact ih h
  · intro ha
    induction files with
    | nil => rfl
    | cons f fs ih =>
      unfold mainLoop
      by_cases hf : fsExists f
      · rw [if_pos hf, ih, List.map_cons, if_pos hf]
      · rw [if_neg hf, if_neg ha, ih, List.map_cons, if_neg hf]
  · intro ha
    induction files with
    | nil => rfl
    | cons f fs ih =>
      unfold mainLoop
      by_cases hf : fsExists f
      · rw [if_pos hf, ih, List.takeWhile_cons_of_pos hf,
          List.dropWhile_cons_of_pos hf, List.map_cons, List.cons_append]
      · rw [if_neg hf, if_pos ha, List.takeWhile_cons_of_neg hf,
          List.dropWhile_cons_of_neg hf]
        rfl

/-- Witness for C10: a three-token invocation with one existing and one
missing file processes both positions and never emits a usage message. -/
theorem C10_witness :
    RunEvent.usage ∉ mainLoop (fun f => f = str "a.csv") 3
      [str "a.csv", str "b.csv"] ∧
    mainLoop (fun f => f = str "a.csv") 3 [str "a.csv", str "b.csv"] =
      [.processed (str "a.csv"), .errorMissing (str "b.csv")] := by
  have h := C10_fatality (fun f => f = str "a.csv") 3
    [str "a.csv", str "b.csv"]
  exact ⟨h.1, (h.2.1 (by decide)).trans (by decide)⟩

/- ### Compound gloss wrapping (C6) -/

/-- One line of the wrapped compound box (`wrapped_compound_lines` entries,
lines 399-444): continuation lines have empty `kanji` and `reading`. -/
structure CompLine where
  kanji : Str
  reading : Str
  meaning : Str
deriving DecidableEq, Repr, Inhabited

/-- The first-line loop of the gloss wrapper (lines 381-397): accumulate
words while the test string fits, break at the first word that does not.
Returns `(first_line_meaning, remaining words, brokeOut)`. -/
def firstMeaningLoop (ok : Str → Bool) : Str → List Str → Str × List Str × Bool
  | acc, [] => (acc, [], false)
  | acc, w :: ws =>
    let test := acc ++ (if acc.isEmpty then [] else [' ']) ++ w
    if ok test then firstMeaningLoop ok test ws
    else (acc, w :: ws, true)

/-- The continuation-line loop (lines 422-444): accumulate words while the
test string fits; on overflow flush the current line (if non-empty) and seed
the next line with the overflowing word. -/
def contMeaningLoop (ok : Str → Bool) : Str → List Str → List Str
  | cur, [] => if cur.isEmpty then [] else [cur]
  | cur, w :: ws =>
    let test := cur ++ (if cur.isEmpty then [] else [' ']) ++ w
    if ok test then contMeaningLoop ok test ws
    else (if cur.isEmpty then [] else [cur]) ++ contMeaningLoop ok w ws

/-- The first-line fit test (line 388): measured width of the candidate at
most `0.9 * (max_box_width - (word width + _s(8) + reading width + _s(12)))`
(float multiplication modelled exactly over `ℚ`). -/
def compOk1 (wm : Str → ℤ) (max_box_width s8 s12 : ℤ) (c : CompoundRec)
    (t : Str) : Bool :=
  decide ((wm t : ℚ) ≤
    ((max_box_width - (wm c.kanji + s8 + wm c.reading + s12) : ℤ) : ℚ) * (9/10))

/-- The continuation-line fit test (line 430): measured width at most
`0.9 * max_box_width`. -/
def compOk2 (wm : Str → ℤ) (max_box_width : ℤ) (t : Str) : Bool :=
  decide ((wm t : ℚ) ≤ ((max_box_width : ℤ) : ℚ) * (9/10))

/-- The wrapping logic of lines 377-444, parameterised over the two fit
tests: run the first-line loop; if it broke out, the first line carries the
accumulated string and the remainder is the re-join of the leftover words,
else the first line carries the raw `meaning` string; an empty first line
degrades to a kanji/reading-only line with the whole meaning re-wrapped; the
remainder is wrapped by the continuation loop into gloss-only lines. -/
def wrapCore (ok1 ok2 : Str → Bool) (c : CompoundRec) : List CompLine :=
  let fl := firstMeaningLoop ok1 [] (splitWs c.meaning)
  let first_line_meaning := if fl.2.2 then fl.1 else c.meaning
  let remaining0 := if fl.2.2 then joinWith [' '] fl.2.1 else []
  let p :=
    if first_line_meaning.isEmpty then
      (CompLine.mk c.kanji c.reading [], c.meaning)
    else (CompLine.mk c.kanji c.reading first_line_meaning, remaining0)
  p.1 :: (contMeaningLoop ok2 [] (splitWs p.2)).map (fun l => CompLine.mk [] [] l)

/-- The per-compound wrapping of `create_kanji_image` (lines 360-444),
parameterised over the opaque width measurement `wm` (font `font_small`). -/
def wrapCompound (wm : Str → ℤ) (max_box_width s8 s12 : ℤ)
    (c : CompoundRec) : List CompLine :=
  wrapCore (compOk1 wm max_box_width s8 s12 c) (compOk2 wm max_box_width) c

/- The specification side, written from the claim's words: greedily pack
whitespace-separated words; the first line takes words while the accumulated
line fits the first-line limit; the first word that would exceed it and all
words after it flow onto continuation lines, each seeded with its first word
and extended greedily while the accumulated line fits the box-width limit. -/

/-- Greedily extend `acc` with words while the joined line passes `ok`. -/
def greedyTake (ok : Str → Bool) : List Str → List Str → List Str × List Str
  | acc, [] => (acc, [])
  | acc, w :: ws =>
    if ok (joinWith [' '] (acc ++ [w])) then greedyTake ok (acc ++ [w]) ws
    else (acc, w :: ws)

theorem greedyTake_rest_length (ok : Str → Bool) :
    ∀ (ws acc : List Str), (greedyTake ok acc ws).2.length ≤ ws.length
  | [], _ => by simp [greedyTake]
  | w :: ws, acc => by
    unfold greedyTake
    by_cases h : ok (joinWith [' '] (acc ++ [w]))
    · rw [if_pos h]
      exact le_trans (greedyTake_rest_length ok ws (acc ++ [w]))
        (Nat.le_succ _)
    · rw [if_neg h]

/-- Greedy continuation lines with explicit fuel (always run with fuel at
least the word count, so the fuel never runs out). -/
def greedyLinesAux (ok : Str → Bool) : ℕ → List Str → List (List Str)
  | 0, _ => []
  | _ + 1, [] => []
  | n + 1, w :: ws =>
    (greedyTake ok [w] ws).1 :: greedyLinesAux ok n (greedyTake ok [w] ws).2

/-- Greedy continuation lines, as word lists: each line is seeded with its
first word and extended greedily while the joined line passes `ok`. -/
def greedyLines (ok : Str → Bool) (l : List Str) : List (List Str) :=
  greedyLinesAux ok l.length l

/-- The wrapped gloss according to the claim: the first-line word list and
the continuation-line word lists. -/
def specWrap (ok1 ok2 : Str → Bool) (words : List Str) :
    List Str × List (List Str) :=
  ((greedyTake ok1 [] words).1, greedyLines ok2 (greedyTake ok1 [] words).2)

theorem greedyLinesAux_stable (ok : Str → Bool) :
    ∀ (n m : ℕ) (ws : List Str), ws.length ≤ n → ws.length ≤ m →
      greedyLinesAux ok n ws = greedyLinesAux ok m ws := by
  intro n
  induction n with
  | zero =>
    intro m ws hn _
    have : ws = [] := List.length_eq_zero.mp (Nat.le_zero.mp hn)
    subst this
    cases m <;> rfl
  | succ n ih =>
    intro m ws hn hm
    cases ws with
    | nil => cases m <;> rfl
    | cons w ws =>
      simp only [List.length_cons] at hn hm
      cases m with
      | zero => omega
      | succ m =>
        show (greedyTake ok [w] ws).1 ::
            greedyLinesAux ok n (greedyTake ok [w] ws).2 = _ ::
            greedyLinesAux ok m (greedyTake ok [w] ws).2
        have hlen := greedyTake_rest_length ok ws [w]
        rw [ih m (greedyTake ok [w] ws).2 (by omega) (by omega)]

theorem greedyLines_nil (ok : Str → Bool) : greedyLines ok [] = [] := rfl

theorem greedyLines_cons (ok : Str → Bool) (w : Str) (ws : List Str) :
    greedyLines ok (w :: ws) =
      (greedyTake ok [w] ws).1 :: greedyLines ok (greedyTake ok [w] ws).2 := by
  show (greedyTake ok [w] ws).1 ::
      greedyLinesAux ok ws.length (greedyTake ok [w] ws).2 =
    (greedyTake ok [w] ws).1 ::
      greedyLinesAux ok (greedyTake ok [w] ws).2.length (greedyTake ok [w] ws).2
  have hlen := greedyTake_rest_length ok ws [w]
  rw [greedyLinesAux_stable ok ws.length (greedyTake ok [w] ws).2.length
    (greedyTake ok [w] ws).2 (by omega) (by omega)]

theorem greedyTake_extends_acc (ok : Str → Bool) :
    ∀ (ws acc : List Str), ∃ ext, (greedyTake ok acc ws).1 = acc ++ ext
  | [], acc => ⟨[], by simp [greedyTake]⟩
  | w :: ws, acc => by
    unfold greedyTake
    by_cases h : ok (joinWith [' '] (acc ++ [w]))
    · rw [if_pos h]
      obtain ⟨ext, hext⟩ := greedyTake_extends_acc ok ws (acc ++ [w])
      exact ⟨w :: ext, by rw [hext]; simp⟩
    · exact ⟨[], by rw [if_neg h]; simp⟩

theorem greedyTake_all (ok : Str → Bool) :
    ∀ (ws acc : List Str), (greedyTake ok acc ws).2 = [] →
      (greedyTake ok acc ws).1 = acc ++ ws
  | [], acc => by simp [greedyTake]
  | w :: ws, acc => by
    unfold greedyTake
    by_cases h : ok (joinWith [' '] (acc ++ [w]))
    · rw [if_pos h]
      intro h2
      rw [greedyTake_all ok ws (acc ++ [w]) h2]
      simp
    · rw [if_neg h]
      intro h2
      exact absurd h2 (by simp)

theorem greedyTake_nil_stop {ok : Str → Bool} :
    ∀ {ws : List Str}, (greedyTake ok [] ws).1 = [] →
      (greedyTake ok [] ws).2 = ws := by
  intro ws
  cases ws with
  | nil => intro _; simp [greedyTake]
  | cons w ws =>
    unfold greedyTake
    simp only [List.nil_append]
    by_cases h : ok (joinWith [' '] [w])
    · rw [if_pos h]
      intro h1
      obtain ⟨ext, hext⟩ := greedyTake_extends_acc ok ws [w]
      rw [hext] at h1
      simp at h1
    · rw [if_neg h]
      intro _
      rfl

theorem greedyTake_words (ok : Str → Bool) :
    ∀ (ws acc : List Str),
      (∀ w ∈ (greedyTake ok acc ws).1, w ∈ acc ∨ w ∈ ws) ∧
      (∀ w ∈ (greedyTake ok acc ws).2, w ∈ ws)
  | [], acc => by simp [greedyTake]
  | w :: ws, acc => by
    unfold greedyTake
    by_cases h : ok (joinWith [' '] (acc ++ [w]))
    · rw [if_pos h]
      obtain ⟨ih1, ih2⟩ := greedyTake_words ok ws (acc ++ [w])
      constructor
      · intro x hx
        rcases ih1 x hx with hx | hx
        · rcases List.mem_append.mp hx with hx | hx
          · exact Or.inl hx
          · have hxw : x = w := List.mem_singleton.mp hx
            exact Or.inr (by simp [hxw])
        · exact Or.inr (List.mem_cons_of_mem w hx)
      · intro x hx
        exact List.mem_cons_of_mem w (ih2 x hx)
    · rw [if_neg h]
      exact ⟨fun x hx => Or.inl hx, fun x hx => hx⟩

theorem greedyLines_words (ok : Str → Bool) :
    ∀ (n : ℕ) (ws : List Str), ws.length ≤ n →
      ∀ l ∈ greedyLines ok ws, ∀ w ∈ l, w ∈ ws
  | 0, ws => by
    intro hlen
    have : ws = [] := List.length_eq_zero.mp (Nat.le_zero.mp hlen)
    subst this
    rw [greedyLines_nil]
    simp
  | n + 1, ws => by
    intro hlen l hl w hw
    cases ws with
    | nil =>
      rw [greedyLines_nil] at hl
      exact absurd hl (List.not_mem_nil l)
    | cons x xs =>
      rw [greedyLines_cons] at hl
      rcases List.mem_cons.mp hl with hl | hl
      · subst hl
        rcases (greedyTake_words ok xs [x]).1 w hw with h | h
        · exact (List.mem_singleton.mp h) ▸ List.mem_cons_self x xs
        · exact List.mem_cons_of_mem x h
      · have hrest := greedyTake_rest_length ok xs [x]
        have hw2 := greedyLines_words ok n (greedyTake ok [x] xs).2
          (by simp at hlen; omega) l hl w hw
        exact List.mem_cons_of_mem x ((greedyTake_words ok xs [x]).2 w hw2)

/-- A good word: non-empty and free of whitespace. -/
@[reducible] def GoodWord (w : Str) : Prop :=
  w ≠ [] ∧ ∀ c ∈ w, pyIsSpace c = false

theorem runsAux_good (p : Char → Bool) :
    ∀ (s cur : Str), (∀ c ∈ cur, p c = true) →
      ∀ w ∈ runsAux p cur s, w ≠ [] ∧ ∀ c ∈ w, p c = true
  | [], cur, hcur => by
    intro w hw
    unfold runsAux at hw
    by_cases h : cur.isEmpty
    · rw [if_pos h] at hw
      simp at hw
    · rw [if_neg h] at hw
      have hwc : w = cur.reverse := by simpa using hw
      subst hwc
      refine ⟨?_, fun c hc => hcur c (List.mem_reverse.mp hc)⟩
      intro hc
      exact h (List.isEmpty_iff.mpr (by simpa using congrArg List.reverse hc))
  | c :: cs, cur, hcur => by
    intro w hw
    unfold runsAux at hw
    by_cases hp : p c
    · rw [if_pos hp] at hw
      exact runsAux_good p cs (c :: cur)
        (fun d hd => by
          rcases List.mem_cons.mp hd with hd | hd
          · exact hd ▸ hp
          · exact hcur d hd) w hw
    · rw [if_neg hp] at hw
      by_cases hc : cur.isEmpty
      · rw [if_pos hc] at hw
        exact runsAux_good p cs [] (by simp) w hw
      · rw [if_neg hc] at hw
        rcases List.mem_cons.mp hw with hw | hw
        · subst hw
          refine ⟨?_, fun d hd => hcur d (List.mem_reverse.mp hd)⟩
          intro h0
          exact hc (List.isEmpty_iff.mpr
            (by simpa using congrArg List.reverse h0))
        · exact runsAux_good p cs [] (by simp) w hw

theorem splitWs_words {s : Str} : ∀ w ∈ splitWs s, GoodWord w := by
  intro w hw
  have := runsAux_good (fun c => !pyIsSpace c) s [] (by simp) w hw
  exact ⟨this.1, fun c hc => by simpa using this.2 c hc⟩

theorem runsAux_nil (p : Char → Bool) (cur : Str) :
    runsAux p cur [] = if cur.isEmpty then [] else [cur.reverse] := rfl

theorem runsAux_cons_pos {p : Char → Bool} {c : Char} (h : p c = true)
    (cur s : Str) : runsAux p cur (c :: s) = runsAux p (c :: cur) s := by
  simp [runsAux, h]

theorem runsAux_cons_neg {p : Char → Bool} {c : Char} (h : p c = false)
    (cur s : Str) :
    runsAux p cur (c :: s) =
      if cur.isEmpty then runsAux p [] s
      else cur.reverse :: runsAux p [] s := by
  simp only [runsAux, h]
  rw [if_neg (by simp)]

theorem runsAux_all_run {p : Char → Bool} :
    ∀ {w : Str} (cur rest : Str), (∀ c ∈ w, p c = true) →
      runsAux p cur (w ++ rest) = runsAux p (w.reverse ++ cur) rest := by
  intro w
  induction w with
  | nil => intro cur rest _; rfl
  | cons c cs ih =>
    intro cur rest hw
    rw [List.cons_append, runsAux_cons_pos (hw c (by simp))]
    rw [ih (c :: cur) rest (fun d hd => hw d (List.mem_cons_of_mem c hd))]
    rw [show (c :: cs).reverse ++ cur = cs.reverse ++ (c :: cur) from by simp]

theorem splitWs_join :
    ∀ (ws : List Str), (∀ w ∈ ws, GoodWord w) →
      splitWs (joinWith [' '] ws) = ws
  | [], _ => rfl
  | w :: ws, h => by
    obtain ⟨hw1, hw2⟩ := h w (by simp)
    have hwp : ∀ c ∈ w, (!pyIsSpace c) = true := fun c hc => by
      simp [hw2 c hc]
    have hrevne : (w.reverse ++ ([] : Str)).isEmpty ≠ true := by
      simp [List.isEmpty_iff, hw1]
    cases ws with
    | nil =>
      show runsAux (fun c => !pyIsSpace c) [] (joinWith [' '] [w]) = [w]
      rw [joinWith_singleton]
      have h2 := runsAux_all_run (p := fun c => !pyIsSpace c) (w := w)
        [] [] hwp
      rw [List.append_nil] at h2
      rw [h2, runsAux_nil, if_neg hrevne]
      simp
    | cons u us =>
      show runsAux (fun c => !pyIsSpace c) [] (joinWith [' '] (w :: u :: us)) =
        w :: u :: us
      rw [joinWith_cons_cons,
        show w ++ [' '] ++ joinWith [' '] (u :: us) =
          w ++ (' ' :: joinWith [' '] (u :: us)) from by simp]
      rw [runsAux_all_run [] _ hwp]
      rw [runsAux_cons_neg (by decide)]
      rw [if_neg hrevne]
      have hrec := splitWs_join (u :: us)
        (fun v hv => h v (List.mem_cons_of_mem w hv))
      unfold splitWs runs at hrec
      rw [hrec]
      simp

theorem joinWith_isEmpty_false {acc : List Str} (hne : acc ≠ [])
    (h : ∀ w ∈ acc, w ≠ []) : (joinWith [' '] acc).isEmpty = false := by
  cases acc with
  | nil => exact absurd rfl hne
  | cons w ws =>
    have : joinWith [' '] (w :: ws) ≠ [] := joinWith_ne_nil (h w (by simp)) ws
    cases hj : joinWith [' '] (w :: ws) with
    | nil => exact absurd hj this
    | cons a s => rfl

theorem joinWith_append_single :
    ∀ (acc : List Str) (w : Str), acc ≠ [] →
      joinWith [' '] (acc ++ [w]) = joinWith [' '] acc ++ ' ' :: w
  | [], _, h => absurd rfl h
  | [a], w, _ => by simp [joinWith]
  | a :: b :: rest, w, _ => by
    have hIH := joinWith_append_single (b :: rest) w (by simp)
    rw [show (a :: b :: rest) ++ [w] = a :: b :: (rest ++ [w]) from by simp]
    rw [joinWith_cons_cons]
    rw [show (b :: (rest ++ [w])) = (b :: rest) ++ [w] from by simp]
    rw [hIH, joinWith_cons_cons]
    simp

theorem join_isEmpty_imp_nil {acc : List Str} (h : ∀ v ∈ acc, v ≠ [])
    (he : (joinWith [' '] acc).isEmpty = true) : acc = [] := by
  cases acc with
  | nil => rfl
  | cons a as =>
    rw [joinWith_isEmpty_false (by simp) h] at he
    exact absurd he (by simp)

theorem testString_eq (acc : List Str) (w : Str) (hacc : ∀ v ∈ acc, v ≠ []) :
    joinWith [' '] acc ++
      (if (joinWith [' '] acc).isEmpty then [] else [' ']) ++ w =
    joinWith [' '] (acc ++ [w]) := by
  cases acc with
  | nil => simp [joinWith]
  | cons a as =>
    rw [joinWith_append_single (a :: as) w (by simp)]
    rw [if_neg (by simp [joinWith_isEmpty_false (by simp) hacc])]
    simp

theorem firstLoop_greedy (ok : Str → Bool) :
    ∀ (ws acc : List Str), (∀ v ∈ acc, v ≠ []) → (∀ v ∈ ws, v ≠ []) →
      firstMeaningLoop ok (joinWith [' '] acc) ws =
        (joinWith [' '] (greedyTake ok acc ws).1, (greedyTake ok acc ws).2,
          !(greedyTake ok acc ws).2.isEmpty)
  | [], acc, _, _ => by simp [firstMeaningLoop, greedyTake]
  | w :: ws, acc, hacc, hws => by
    unfold firstMeaningLoop greedyTake
    rw [testString_eq acc w hacc]
    by_cases h : ok (joinWith [' '] (acc ++ [w]))
    · rw [if_pos h, if_pos h]
      exact firstLoop_greedy ok ws (acc ++ [w])
        (fun v hv => by
          rcases List.mem_append.mp hv with hv | hv
          · exact hacc v hv
          · rw [List.mem_singleton.mp hv]; exact hws w (by simp))
        (fun v hv => hws v (List.mem_cons_of_mem w hv))
    · rw [if_neg h, if_neg h]
      simp

theorem contLoop_nil_start (ok : Str → Bool) (w : Str) (ws : List Str) :
    contMeaningLoop ok [] (w :: ws) = contMeaningLoop ok w ws := by
  have hunf : contMeaningLoop ok [] (w :: ws) =
      if ok w then contMeaningLoop ok w ws
      else [] ++ contMeaningLoop ok w ws := rfl
  rw [hunf]
  by_cases h : ok w
  · rw [if_pos h]
  · rw [if_neg h, List.nil_append]

theorem contLoop_greedy (ok : Str → Bool) :
    ∀ (ws acc : List Str), acc ≠ [] → (∀ v ∈ acc, v ≠ []) →
      (∀ v ∈ ws, v ≠ []) →
      contMeaningLoop ok (joinWith [' '] acc) ws =
        joinWith [' '] (greedyTake ok acc ws).1 ::
          (greedyLines ok (greedyTake ok acc ws).2).map (joinWith [' '])
  | [], acc, hne, hacc, _ => by
    unfold contMeaningLoop greedyTake
    rw [if_neg (by simp [joinWith_isEmpty_false hne hacc])]
    rw [greedyLines_nil]
    rfl
  | w :: ws, acc, hne, hacc, hws => by
    unfold contMeaningLoop greedyTake
    rw [testString_eq acc w hacc]
    by_cases h : ok (joinWith [' '] (acc ++ [w]))
    · rw [if_pos h, if_pos h]
      exact contLoop_greedy ok ws (acc ++ [w]) (by simp)
        (fun v hv => by
          rcases List.mem_append.mp hv with hv | hv
          · exact hacc v hv
          · rw [List.mem_singleton.mp hv]; exact hws w (by simp))
        (fun v hv => hws v (List.mem_cons_of_mem w hv))
    · rw [if_neg h, if_neg h]
      rw [if_neg (by simp [joinWith_isEmpty_false hne hacc])]
      have hrec := contLoop_greedy ok ws [w] (by simp)
        (fun v hv => by
          rw [List.mem_singleton.mp hv]; exact hws w (by simp))
        (fun v hv => hws v (List.mem_cons_of_mem w hv))
      rw [joinWith_singleton] at hrec
      rw [hrec, greedyLines_cons]
      simp

theorem contLoop_greedyLines (ok : Str → Bool) :
    ∀ (ws : List Str), (∀ v ∈ ws, v ≠ []) →
      contMeaningLoop ok [] ws = (greedyLines ok ws).map (joinWith [' '])
  | [], _ => by rw [greedyLines_nil]; rfl
  | w :: ws, h => by
    rw [contLoop_nil_start]
    have hrec := contLoop_greedy ok ws [w] (by simp)
      (fun v hv => by rw [List.mem_singleton.mp hv]; exact h w (by simp))
      (fun v hv => h v (List.mem_cons_of_mem w hv))
    rw [joinWith_singleton] at hrec
    rw [hrec, greedyLines_cons]
    simp

theorem wrapTail_greedyLines (ok2 : Str → Bool) (L : List Str)
    (hL : ∀ v ∈ L, GoodWord v) :
    ((contMeaningLoop ok2 [] L).map (fun l => CompLine.mk [] [] l)).map
        (fun l => (l.kanji, l.reading, splitWs l.meaning)) =
      (greedyLines ok2 L).map (fun ws => (([] : Str), ([] : Str), ws)) := by
  rw [contLoop_greedyLines ok2 L (fun v hv => (hL v hv).1)]
  rw [List.map_map, List.map_map]
  refine List.map_congr_left (fun line hline => ?_)
  simp only [Function.comp_apply]
  rw [splitWs_join line
    (fun v hv => hL v (greedyLines_words ok2 L.length L le_rfl line hline v hv))]

theorem C6_core (ok1 ok2 : Str → Bool) (c : CompoundRec) :
    (wrapCore ok1 ok2 c).map
        (fun l => (l.kanji, l.reading, splitWs l.meaning)) =
      (c.kanji, c.reading, (specWrap ok1 ok2 (splitWs c.meaning)).1) ::
        (specWrap ok1 ok2 (splitWs c.meaning)).2.map
          (fun ws => (([] : Str), ([] : Str), ws)) := by
  have hgood : ∀ w ∈ splitWs c.meaning, GoodWord w := splitWs_words
  have hwne : ∀ w ∈ splitWs c.meaning, w ≠ [] := fun w hw => (hgood w hw).1
  have hG1good : ∀ w ∈ (greedyTake ok1 [] (splitWs c.meaning)).1, GoodWord w := by
    intro w hw
    rcases (greedyTake_words ok1 (splitWs c.meaning) []).1 w hw with h | h
    · simp at h
    · exact hgood w h
  have hG2good : ∀ w ∈ (greedyTake ok1 [] (splitWs c.meaning)).2, GoodWord w :=
    fun w hw => hgood w ((greedyTake_words ok1 (splitWs c.meaning) []).2 w hw)
  have hfl := firstLoop_greedy ok1 (splitWs c.meaning) [] (by simp) hwne
  rw [show joinWith [' '] ([] : List Str) = ([] : Str) from rfl] at hfl
  unfold wrapCore specWrap
  rw [hfl]
  cases hG2 : (greedyTake ok1 [] (splitWs c.meaning)).2 with
  | nil =>
    simp only [hG2, List.isEmpty_nil, Bool.not_true, Bool.false_eq_true,
      if_false, greedyLines_nil, List.map_nil]
    have hGall := greedyTake_all ok1 (splitWs c.meaning) [] hG2
    rw [List.nil_append] at hGall
    by_cases hm : c.meaning.isEmpty
    · have hmn : c.meaning = [] := List.isEmpty_iff.mp hm
      simp only [hm, if_true]
      rw [hGall, hmn]
      rfl
    · simp only [hm, Bool.false_eq_true, if_false]
      rw [hGall]
      rfl
  | cons m rest =>
    simp only [hG2, List.isEmpty_cons, Bool.not_false, if_true]
    by_cases hj : (joinWith [' ']
        (greedyTake ok1 [] (splitWs c.meaning)).1).isEmpty
    · have hG1nil : (greedyTake ok1 [] (splitWs c.meaning)).1 = [] :=
        join_isEmpty_imp_nil (fun v hv => (hG1good v hv).1) hj
      have hG2all : (greedyTake ok1 [] (splitWs c.meaning)).2 =
          splitWs c.meaning := greedyTake_nil_stop hG1nil
      have hsm : splitWs c.meaning = m :: rest := hG2all.symm.trans hG2
      rw [List.map_cons]
      simp only [hG1nil, show joinWith [' '] ([] : List Str) = ([] : Str)
        from rfl, List.isEmpty_nil, if_true]
      rw [wrapTail_greedyLines ok2 (splitWs c.meaning) hgood, hsm]
      rfl
    · have hG1ne : (greedyTake ok1 [] (splitWs c.meaning)).1 ≠ [] := by
        intro h0
        rw [h0] at hj
        exact hj rfl
      simp only [hj, Bool.false_eq_true, if_false]
      rw [List.map_cons]
      have hG2g : ∀ v ∈ (m :: rest : List Str), GoodWord v := by
        intro v hv
        exact hG2good v (hG2 ▸ hv)
      rw [show splitWs (joinWith [' '] (m :: rest)) = m :: rest from
        splitWs_join (m :: rest) hG2g]
      rw [wrapTail_greedyLines ok2 (m :: rest) hG2g]
      rw [show splitWs (joinWith [' ']
          (greedyTake ok1 [] (splitWs c.meaning)).1) =
        (greedyTake ok1 [] (splitWs c.meaning)).1 from
        splitWs_join _ hG1good]

/-- C6 (confirmed): the gloss of every compound is wrapped by greedily
packing its whitespace-separated words — words go onto the first line while
the accumulated line's measured width stays within 90% of the space left
after the word and reading widths plus the fixed gaps; the first word that
would exceed that limit and all words after it flow onto continuation lines,
each seeded with its first word and packed greedily to 90% of the box's full
usable width; continuation lines carry only gloss text (empty word/reading
columns).  Stated at word granularity because on an all-fitting gloss the
code re-uses the raw meaning string (same words, original spacing). -/
theorem C6_gloss_wrapping (wm : Str → ℤ) (max_box_width s8 s12 : ℤ)
    (c : CompoundRec) :
    (wrapCompound wm max_box_width s8 s12 c).map
        (fun l => (l.kanji, l.reading, splitWs l.meaning)) =
      (c.kanji, c.reading,
        (specWrap (compOk1 wm max_box_width s8 s12 c) (compOk2 wm max_box_width)
          (splitWs c.meaning)).1) ::
        (specWrap (compOk1 wm max_box_width s8 s12 c) (compOk2 wm max_box_width)
          (splitWs c.meaning)).2.map
          (fun ws => (([] : Str), ([] : Str), ws)) :=
  C6_core (compOk1 wm max_box_width s8 s12 c) (compOk2 wm max_box_width) c

/- ### The full render (C9) -/

def BACKGROUND_COLOR : ℤ × ℤ × ℤ × ℤ := (0, 0, 0, 255)

def TEXT_COLOR : ℤ × ℤ × ℤ := (255, 255, 255)

def COMPOUND_BOX_COLOR : ℤ × ℤ × ℤ × ℤ := (20, 20, 20, 255)

def COMPOUND_TEXT_COLOR : ℤ × ℤ × ℤ := (255, 255, 255)

def COMPOUND_READING_COLOR : ℤ × ℤ × ℤ := (255, 165, 0)

def ACCENT_COLOR : ℤ × ℤ × ℤ := (100, 149, 237)

def KANJI_COLOR : ℤ × ℤ × ℤ := (255, 255, 255)

def READING_BG_COLOR : ℤ × ℤ × ℤ × ℤ := (45, 45, 45, 255)

/-- The font tiers loaded by `_load_fonts`. -/
inductive Font where
  | large
  | medium
  | small
  | jis
deriving DecidableEq, Repr

/-- A text bounding box as returned by `draw.textbbox((0,0), s, font)`. -/
structure BBoxR where
  left : ℤ
  top : ℤ
  right : ℤ
  bottom : ℤ
deriving DecidableEq, Repr

/-- The opaque font-measurement primitive. -/
abbrev Measure := Font → Str → BBoxR

/-- Measured text width (`bbox[2] - bbox[0]`). -/
def bbW (bb : Measure) (f : Font) (s : Str) : ℤ :=
  (bb f s).right - (bb f s).left

/-- Paint commands issued against the raster-drawing primitive. -/
inductive Cmd where
  | text (pos : ℤ × ℤ) (s : Str) (font : Font) (fill : ℤ × ℤ × ℤ)
  | roundedRect (box : ℤ × ℤ × ℤ × ℤ) (radius : ℤ) (fill : ℤ × ℤ × ℤ × ℤ)
  | rect (box : ℤ × ℤ × ℤ × ℤ) (fill : ℤ × ℤ × ℤ × ℤ)
      (outline : ℤ × ℤ × ℤ) (width : ℤ)
deriving DecidableEq, Repr

/-- Embedding of `_draw_text_background` (lines 238-250); the rounded-rectangle primitive
is assumed to succeed (its except-branch draws a plain rectangle). -/
def drawTextBackground (W H : ℕ) (x y text_width : ℤ) (bbox : BBoxR)
    (padding_x padding_y : ℤ) : Cmd :=
  Cmd.roundedRect
    (x - padding_x, y + bbox.top - padding_y,
     x + text_width + padding_x, y + bbox.bottom + padding_y)
    (sd W H 10) READING_BG_COLOR

/-- Python `s.split(sep, 1)` for a separator contained in `s`: the pieces
before and after its first occurrence. -/
def pySplitOnce (sep : Char) (s : Str) : Str × Str :=
  (s.takeWhile (· != sep), (s.dropWhile (· != sep)).drop 1)

/-- Python `c in s` for a single character. -/
def hasChar (c : Char) (s : Str) : Bool := s.contains c

/-- The chip loop of `_draw_readings` (lines 252-333): carries the cursor
`(current_x, y)`, emits the pill background and the one or two text segments
per reading, and returns the final `y`. -/
def drawReadingsGo (W H : ℕ) (bb : Measure)
    (right_x max_reading_x pill_padding_x pill_padding_y pill_gap
      reading_line_step : ℤ) :
    List Str → ℤ → ℤ → List Cmd × ℤ
  | [], _, y => ([], y)
  | reading :: rest, current_x, y =>
    if hasChar '・' reading || hasChar '.' reading then
      let parts := if hasChar '・' reading then pySplitOnce '・' reading
        else pySplitOnce '.' reading
      let bbox_before := bb Font.medium parts.1
      let bbox_after := bb Font.medium parts.2
      let width_before := bbox_before.right - bbox_before.left
      let width_after := bbox_after.right - bbox_after.left
      let combined_width := width_before + width_after
      let pill_total_width := combined_width + 2 * pill_padding_x
      let pos := chipPlace right_x max_reading_x reading_line_step
        pill_total_width current_x y
      let combined_bbox : BBoxR :=
        ⟨0, min bbox_before.top bbox_after.top, combined_width,
          max bbox_before.bottom bbox_after.bottom⟩
      let next := drawReadingsGo W H bb right_x max_reading_x pill_padding_x
        pill_padding_y pill_gap reading_line_step rest
        (pos.1 + pill_total_width + pill_gap) pos.2
      (drawTextBackground W H pos.1 pos.2 combined_width combined_bbox
          pill_padding_x pill_padding_y ::
        Cmd.text (pos.1, pos.2) parts.1 Font.medium ACCENT_COLOR ::
        Cmd.text (pos.1 + width_before, pos.2) parts.2 Font.medium TEXT_COLOR ::
        next.1,
       next.2)
    else
      let bbox := bb Font.medium reading
      let width := bbox.right - bbox.left
      let pill_total_width := width + 2 * pill_padding_x
      let pos := chipPlace right_x max_reading_x reading_line_step
        pill_total_width current_x y
      let next := drawReadingsGo W H bb right_x max_reading_x pill_padding_x
        pill_padding_y pill_gap reading_line_step rest
        (pos.1 + pill_total_width + pill_gap) pos.2
      (drawTextBackground W H pos.1 pos.2 width bbox pill_padding_x
          pill_padding_y ::
        Cmd.text (pos.1, pos.2) reading Font.medium ACCENT_COLOR :: next.1,
       next.2)

/-- Embedding of `_draw_readings` (lines 252-335): run the chip loop from the line origin
and return the commands together with
`y + reading_line_step + vertical_spacing`. -/
def drawReadings (W H : ℕ) (bb : Measure)
    (right_x max_reading_x pill_padding_x pill_padding_y pill_gap
      reading_line_step vertical_spacing : ℤ)
    (readings : List Str) (y : ℤ) : List Cmd × ℤ :=
  let r := drawReadingsGo W H bb right_x max_reading_x pill_padding_x
    pill_padding_y pill_gap reading_line_step readings right_x y
  (r.1, r.2 + reading_line_step + vertical_spacing)

/-- The compound-text loop (lines 474-533): full lines paint three colour
segments with raw gaps of 8 and 12 pixels, continuation lines paint only the
gloss, a line with an empty gloss paints nothing, and the loop breaks once
the cursor passes the box's bottom padding. -/
def drawCompLines (bb : Measure) (right_x line_spacing box_y1 box_padding : ℤ) :
    List CompLine → ℤ → List Cmd
  | [], _ => []
  | lp :: rest, compound_y =>
    let cmds :=
      if !lp.kanji.isEmpty && !lp.reading.isEmpty && !lp.meaning.isEmpty then
        let x1 := right_x + bbW bb Font.small lp.kanji + 8
        let x2 := x1 + bbW bb Font.small lp.reading + 12
        [Cmd.text (right_x, compound_y) lp.kanji Font.small
          COMPOUND_TEXT_COLOR,
         Cmd.text (x1, compound_y) lp.reading Font.small
          COMPOUND_READING_COLOR,
         Cmd.text (x2, compound_y) lp.meaning Font.small COMPOUND_TEXT_COLOR]
      else if !lp.meaning.isEmpty then
        [Cmd.text (right_x, compound_y) lp.meaning Font.small
          COMPOUND_TEXT_COLOR]
      else []
    let cy := compound_y + line_spacing
    cmds ++ (if cy > box_y1 - box_padding then []
      else drawCompLines bb right_x line_spacing box_y1 box_padding rest cy)

/-- Embedding of `create_kanji_image` (lines 175-542): `none` iff the entry has no kanji
(the `return False` guard), else the ordered list of paint commands; the
final `image.save` is an external collaborator assumed to succeed. -/
def create_kanji_image (W H : ℕ) (bb : Measure) (e : KanjiEntry) :
    Option (List Cmd) :=
  if e.kanji.isEmpty then none else
  let x_margin := sd W H 80
  let estimated_content_height := sd W H 400
  let y_center_offset := Int.fdiv ((H : ℤ) - estimated_content_height) 2
  let y_margin := max (sd W H 50) y_center_offset
  let vertical_spacing := sd W H 20
  let left_x := x_margin
  let kanji_y := y_margin + sd W H 30
  let right_x := left_x + sd W H 350
  let right_y0 := y_margin
  let right_y1 := right_y0 + sd W H 45 + vertical_spacing
  let pill_padding_x := sd W H 6
  let pill_padding_y := sd W H 4
  let pill_gap := sd W H 16
  let max_reading_x := (W : ℤ) - x_margin
  let reading_line_step := sd W H 40
  let kat := if e.katakana_readings.isEmpty then (([] : List Cmd), right_y1)
    else drawReadings W H bb right_x max_reading_x pill_padding_x
      pill_padding_y pill_gap reading_line_step vertical_spacing
      e.katakana_readings right_y1
  let hir := if e.hiragana_readings.isEmpty then (([] : List Cmd), kat.2)
    else drawReadings W H bb right_x max_reading_x pill_padding_x
      pill_padding_y pill_gap reading_line_step vertical_spacing
      e.hiragana_readings kat.2
  let box_padding := sd W H 15
  let line_spacing := sd W H 38
  let box_x0 := right_x - box_padding
  let box_y0 := hir.2 + vertical_spacing
  let available_width := (W : ℤ) - right_x - x_margin - sd W H 20
  let max_box_width := available_width - box_padding * 2
  let wrapped := e.compounds.flatMap
    (wrapCompound (bbW bb Font.small) max_box_width (sd W H 8) (sd W H 12))
  let box_y1 :=
    if !wrapped.isEmpty then
      let max_available_height := (H : ℤ) - box_y0 - sd W H 30
      let ideal_content_height := (wrapped.length : ℤ) * line_spacing
      let actual_content_height := min ideal_content_height
        (max_available_height - box_padding * 2)
      box_y0 + (actual_content_height + box_padding * 2)
    else box_y0 + box_padding * 2 + 30
  let box_x1 := (W : ℤ) - x_margin
  let compCmds := if !wrapped.isEmpty then
      drawCompLines bb right_x line_spacing box_y1 box_padding wrapped
        (box_y0 + box_padding)
    else []
  some (Cmd.text (left_x, kanji_y) e.kanji Font.large KANJI_COLOR ::
    Cmd.text (right_x, right_y0) e.meaning Font.medium TEXT_COLOR ::
    (kat.1 ++ hir.1 ++
      Cmd.rect (box_x0, box_y0, box_x1, box_y1) COMPOUND_BOX_COLOR
        TEXT_COLOR 2 :: compCmds))

/-- The exact command list for an entry whose meaning, readings and
compounds are all empty: the kanji glyph, an empty meaning text, and the
empty bordered compounds box at minimum height. -/
def emptyEntryCmds (W H : ℕ) (e : KanjiEntry) : List Cmd :=
  let x_margin := sd W H 80
  let y_center_offset := Int.fdiv ((H : ℤ) - sd W H 400) 2
  let y_margin := max (sd W H 50) y_center_offset
  let vertical_spacing := sd W H 20
  let right_x := x_margin + sd W H 350
  let box_y0 := (y_margin + sd W H 45 + vertical_spacing) + vertical_spacing
  let box_padding := sd W H 15
  [Cmd.text (x_margin, y_margin + sd W H 30) e.kanji Font.large KANJI_COLOR,
   Cmd.text (right_x, y_margin) e.meaning Font.medium TEXT_COLOR,
   Cmd.rect (right_x - box_padding, box_y0, (W : ℤ) - x_margin,
       box_y0 + box_padding * 2 + 30)
     COMPOUND_BOX_COLOR TEXT_COLOR 2]

/-- Recognise the compounds-box rectangle command. -/
def isRectCmd : Cmd → Bool
  | .rect _ _ _ _ => true
  | _ => false

/-- A degenerate measurement (every bbox zero), usable as a concrete
measurement function. -/
def bbZero : Measure := fun _ _ => ⟨0, 0, 0, 0⟩

/-- C9 (amended): for every entry with a non-empty character the render
call succeeds whatever the other fields hold; when the meaning, both reading
lists and the compounds are empty, the readings contribute no commands and
no compound text is painted, but the render is not element-free: it still
paints the (empty) meaning text command and the bordered compounds box at
minimum height. -/
theorem C9_render_empty_fields (W H : ℕ) (bb : Measure) (e : KanjiEntry)
    (hk : e.kanji ≠ []) :
    create_kanji_image W H bb e ≠ none ∧
    (e.hiragana_readings = [] → e.katakana_readings = [] → e.compounds = [] →
      create_kanji_image W H bb e = some (emptyEntryCmds W H e)) := by
  have hke : e.kanji.isEmpty = false := by
    cases hkj : e.kanji with
    | nil => exact absurd hkj hk
    | cons a s => rfl
  constructor
  · unfold create_kanji_image
    rw [if_neg (by simp [hke])]
    simp
  · intro h1 h2 h3
    unfold create_kanji_image emptyEntryCmds
    rw [if_neg (by simp [hke])]
    rw [h1, h2, h3]
    simp

/-- At the baseline resolution the scale is 1 and `sd` is the identity on
positive baseline sizes. -/
theorem sd_base (px : ℕ) (h : 1 ≤ px) : sd 1920 1080 px = px := by
  unfold sd _s
  rw [show scaleQ 1920 1080 = 1 from by norm_num [scaleQ], mul_one]
  rw [show ((px : ℚ)) = (((px : ℤ) : ℤ) : ℚ) from by push_cast; ring,
    pyRound_intCast]
  omega

/-- Witness for C9 at 1920×1080 with a concrete entry and measurement. -/
theorem C9_witness :
    create_kanji_image 1920 1080 bbZero ⟨str "腕", [], [], [], []⟩ =
      some [Cmd.text (80, 370) (str "腕") Font.large KANJI_COLOR,
            Cmd.text (430, 340) [] Font.medium TEXT_COLOR,
            Cmd.rect (415, 425, 1840, 485) COMPOUND_BOX_COLOR TEXT_COLOR 2] :=
  ((C9_render_empty_fields 1920 1080 bbZero ⟨str "腕", [], [], [], []⟩
    (by decide)).2 rfl rfl rfl).trans (by
      unfold emptyEntryCmds
      rw [sd_base 80 (by omega), sd_base 400 (by omega), sd_base 50 (by omega),
        sd_base 20 (by omega), sd_base 350 (by omega), sd_base 45 (by omega),
        sd_base 30 (by omega), sd_base 15 (by omega)]
      decide)

/-- C9 counterexample: for an entry with a non-empty character and every
other field empty, the render succeeds but the command list still contains a
rectangle — the bordered compounds box is painted even though the compounds
list is empty, so the compounds field's visual element is not "omitted from
the canvas (nothing is painted for it)" as the claim states. -/
theorem C9_counterexample :
    ((create_kanji_image 1920 1080 bbZero
        ⟨str "腕", [], [], [], []⟩).getD []).any isRectCmd = true ∧
    create_kanji_image 1920 1080 bbZero ⟨str "腕", [], [], [], []⟩ ≠ none := by
  have hrender : create_kanji_image 1920 1080 bbZero
      ⟨str "腕", [], [], [], []⟩ =
      some (emptyEntryCmds 1920 1080 ⟨str "腕", [], [], [], []⟩) := by
    unfold create_kanji_image emptyEntryCmds
    rw [if_neg (by decide)]
    simp
  rw [hrender]
  constructor
  · unfold emptyEntryCmds
    simp [isRectCmd]
  · simp

end KanjiSlideshow
